import Mathlib

/-!
A shallow embedding of `DynamicPGMIndex` from `src/include/pgm_index_dynamic.hpp`.

Keys (`K = uint64_t`) are modelled as `Nat`: the container only ever compares
keys, and `std::numeric_limits<K>::min()` is `0`, so no wrap-around behaviour is
exercised.  Values are modelled as `Nat` as well.  `std::vector` is modelled as
`List`, with `resize`, element writes and the default-initializing allocator
(`DefaultInitAllocator`, which leaves new elements uninitialized) made explicit:
an uninitialized slot is modelled by the fixed default item `dfltItem`.

Every loop of the source is modelled as a function that is structurally
recursive on an explicit `fuel : Nat` argument, so that all definitions reduce
inside the kernel; each call site passes a fuel value that provably dominates
the number of iterations the loop can perform, so the fuel-exhausted branch is
never taken on the arguments that occur.

The static learned index (`PGMType`, from `pgm_index.hpp`, which is not part of
the sources) only influences behaviour through `search(key) -> {lo, hi}`; it is
modelled from the spec, see `pgmSearch` below.
-/

namespace DPgm

/-- Operations provided by the value part of an entry.  The source selects
`BaseItemA` (pointer values, tombstone = reserved sentinel pointer) or
`BaseItemB` (explicit boolean flag) via `std::conditional_t` on
`std::is_pointer_v<V>`. -/
class BaseOps (B : Type) where
  deleted : B → Bool
  tomb : B
  ofValue : Nat → B
  dflt : B

/-- The value-and-flag part used for non-pointer `V` (`BaseItemB` in the
source): an explicit `flag` marks tombstones. -/
structure BaseItemB where
  second : Nat
  flag : Bool
  deriving DecidableEq, Repr

/-- `BaseItemB` operations.  The erase constructor `Item(key)` default
constructs the base (leaving `second` uninitialized, modelled as `0`) and then
sets the flag.  `dflt` models a default-initialized (uninitialized) slot. -/
instance : BaseOps BaseItemB where
  deleted b := b.flag
  tomb := ⟨0, true⟩
  ofValue v := ⟨v, false⟩
  dflt := ⟨0, false⟩

/-- The sentinel pointer `BaseItemA::tombstone = new std::remove_pointer_t<V>()`:
a fixed distinguished address, modelled as `1`. -/
def tombstoneA : Nat := 1

/-- The value part used for pointer `V` (`BaseItemA` in the source): the
pointer value itself, with `deleted()` defined as equality with the reserved
sentinel `tombstoneA`. -/
structure BaseItemA where
  second : Nat
  deriving DecidableEq, Repr

/-- `BaseItemA` operations: `set_deleted()` stores the sentinel, `deleted()`
compares with it. -/
instance : BaseOps BaseItemA where
  deleted b := b.second == tombstoneA
  tomb := ⟨tombstoneA⟩
  ofValue v := ⟨v⟩
  dflt := ⟨0⟩

/-- An entry of the container (`Item` in the source): a key `first` and the
base part.  Comparisons between items always go through the implicit
`operator K()` conversion, i.e. compare keys only. -/
structure Item (B : Type) where
  first : Nat
  base : B
  deriving DecidableEq, Repr

/-- Key accessor (`Item::key()`). -/
def Item.key (x : Item B) : Nat := x.first

/-- Deletion test (`Item::deleted()`). -/
def Item.del [BaseOps B] (x : Item B) : Bool := BaseOps.deleted x.base

/-- A default-initialized item (contents of an uninitialized slot produced by
`DefaultInitAllocator`; the concrete value is a modelling choice since C++
leaves such memory indeterminate). -/
def dfltItem [BaseOps B] : Item B := ⟨0, BaseOps.dflt⟩

/-- `min_level = 6`: the `2^(min_level+1)-1`-sized sorted insertion buffer
lives at this level. -/
def min_level : Nat := 6

/-- `init_levels = 15`: number of levels allocated by the default
constructor. -/
def init_levels : Nat := 15

/-- `max_fully_allocated_level = max(15, min_level + 1) = 15`. -/
def max_fully_allocated_level : Nat := 15

/-- Default value of the `MinIndexedLevel` template parameter. -/
def MinIndexedLevel : Nat := 18

/-- The container state: `used_levels` and the per-level arrays
(`data[i - min_level]` is the array of level `i`).  The `pgm` vector of learned
indexes is omitted: under the spec-modelled `pgmSearch` below it never
influences observable behaviour, and no claim concerns `size_in_bytes`. -/
structure DPGM (B : Type) where
  used_levels : Nat
  data : List (List (Item B))
  deriving DecidableEq, Repr

/-- `get_level(level) = data[level - min_level]`. -/
def getLevel (s : DPGM B) (i : Nat) : List (Item B) := s.data.getD (i - min_level) []

/-- The default constructor: `used_levels = min_level`, `init_levels - min_level`
empty levels (capacity reservations have no observable effect). -/
def initState : DPGM B := ⟨min_level, List.replicate (init_levels - min_level) []⟩

/-- Total number of stored entries over all levels (used as iteration fuel for
the iterator model). -/
def totalSize (s : DPGM B) : Nat := s.data.foldl (fun n l => n + l.length) 0

/-- Model of `std::lower_bound` on the index window `[first, first+len)` of
`l`, compared against key `k`: the exact binary partition performed by the
library (halving `len`), so that the model agrees with the source even on
unsorted data.  `len` strictly decreases at every iteration, so any
`fuel ≥ len` is sufficient. -/
def lbAux [BaseOps B] (l : List (Item B)) (k : Nat) : Nat → Nat → Nat → Nat
  | first, _, 0 => first
  | first, len, fuel + 1 =>
    if len = 0 then first
    else
      let half := len / 2
      if (l.getD (first + half) dfltItem).first < k then
        lbAux l k (first + half + 1) (len - half - 1) fuel
      else
        lbAux l k first half fuel

/-- `std::lower_bound` over the whole list. -/
def lbIdx [BaseOps B] (l : List (Item B)) (k : Nat) : Nat := lbAux l k 0 l.length l.length

/-- Model of `std::upper_bound` on the index window `[first, first+len)`,
against key `k`. -/
def ubAux [BaseOps B] (l : List (Item B)) (k : Nat) : Nat → Nat → Nat → Nat
  | first, _, 0 => first
  | first, len, fuel + 1 =>
    if len = 0 then first
    else
      let half := len / 2
      if k < (l.getD (first + half) dfltItem).first then
        ubAux l k first half fuel
      else
        ubAux l k (first + half + 1) (len - half - 1) fuel

/-- The merge routine `DynamicPGMIndex::merge<SkipDeleted>`: `l1` is the first
(newer) input run, `l2` the second (older) one.  On equal keys the newer entry
wins, except that with `skip = true` a deleted newer entry annihilates together
with its match.  The trailing `std::copy` calls are the two base equations.
Each iteration consumes at least one input element, so any
`fuel ≥ l1.length + l2.length` is sufficient. -/
def mergeRuns [BaseOps B] (skip : Bool) : List (Item B) → List (Item B) → Nat → List (Item B)
  | _, _, 0 => []
  | [], l2, _ + 1 => l2
  | a :: t1, [], _ + 1 => a :: t1
  | a :: t1, b :: t2, fuel + 1 =>
    if b.first < a.first then b :: mergeRuns skip (a :: t1) t2 fuel
    else if a.first < b.first then a :: mergeRuns skip t1 (b :: t2) fuel
    else if skip && BaseOps.deleted a.base then mergeRuns skip t1 t2 fuel
    else a :: mergeRuns skip t1 t2 fuel

/-- `merge<SkipDeleted>` with sufficient fuel. -/
def mergeFull [BaseOps B] (skip : Bool) (l1 l2 : List (Item B)) : List (Item B) :=
  mergeRuns skip l1 l2 (l1.length + l2.length)

/-- Writing an output range `out` through an output iterator positioned at the
start of a preallocated buffer `buf`: the prefix is overwritten, the rest of
the buffer keeps its old contents. -/
def writeOut (buf out : List (Item B)) : List (Item B) := out ++ buf.drop out.length

/-- `std::vector::resize(n)` under the default-initializing allocator: keep the
first `n` elements, pad with uninitialized (default) items if growing. -/
def resizeTo [BaseOps B] (l : List (Item B)) (n : Nat) : List (Item B) :=
  l.take n ++ List.replicate (n - l.length) dfltItem

/-- `l.insert(pos, x)` on a vector, as index arithmetic. -/
def insertAt (l : List (Item B)) (i : Nat) (x : Item B) : List (Item B) :=
  l.take i ++ x :: l.drop i

/-- The merge loop of `pairwise_logarithmic_merge` (`for i = 1+min_level ..
limit`): ping-pongs between the two scratch buffers according to
`alternate = ((i - min_level) % 2 == mod)`, reads `actual` elements from the
source buffer, merges with level `i` (with `SkipDeleted` exactly when
`i == used_levels - 1`), clears level `i`, and continues.  The loop runs
`limit + 1 - i` times, so any fuel of at least that is sufficient. -/
def mergeLoop [BaseOps B] (used limit : Nat) :
    Nat → List (List (Item B)) → List (Item B) → List (Item B) → Nat → Nat → Nat →
    List (List (Item B)) × List (Item B) × List (Item B) × Nat
  | _, dat, bufA, bufB, _, actual, 0 => (dat, bufA, bufB, actual)
  | i, dat, bufA, bufB, m, actual, fuel + 1 =>
    if limit < i then (dat, bufA, bufB, actual)
    else
      let alternate := (i - min_level) % 2 == m
      let src := if alternate then bufA else bufB
      let lvl := dat.getD (i - min_level) []
      let skip := i == used - 1
      let out := mergeFull skip (src.take actual) lvl
      let dat1 := dat.set (i - min_level) []
      if alternate then mergeLoop used limit (i + 1) dat1 bufA (writeOut bufB out) m out.length fuel
      else mergeLoop used limit (i + 1) dat1 (writeOut bufA out) bufB m out.length fuel

/-- `pairwise_logarithmic_merge(new_item, up_to_level, size_hint,
insertion_point)`: allocates the scratch buffers, seeds `tmp_a` or `tmp_b`
(according to `mod`) with level `min_level`'s contents plus the new item at its
insertion point, runs the merge loop up to `limit` (which includes the target
level exactly when the target level is nonempty), then installs
`tmp_b.resize(actual_size)` as the new target level and clears the buffer
level.  Note that the installed buffer is always `tmp_b`, regardless of which
buffer received the final merge output. -/
def pairwiseMerge [BaseOps B] (s : DPGM B) (x : Item B) (up_to ip size_hint : Nat) : DPGM B :=
  let target := up_to + 1
  let tgt := getLevel s target
  let bufA0 : List (Item B) := List.replicate size_hint dfltItem
  let bufB0 : List (Item B) := List.replicate (size_hint + tgt.length) dfltItem
  let m := (up_to - min_level) % 2
  let seed := insertAt (getLevel s min_level) ip x
  let bufA1 := if m == 1 then writeOut bufA0 seed else bufA0
  let bufB1 := if m == 1 then bufB0 else writeOut bufB0 seed
  let limit := if tgt.isEmpty then up_to else up_to + 1
  let r := mergeLoop s.used_levels limit (min_level + 1) s.data bufA1 bufB1 m
    (2 ^ (min_level + 1)) (limit + 1)
  let newTarget := resizeTo r.2.2.1 r.2.2.2
  { used_levels := s.used_levels,
    data := (r.1.set 0 []).set (target - min_level) newTarget }

/-- The level-scanning loop of `insert(const Item&)`: starting from
`min_level + 1` with `slots_required = 2^(min_level+1)`, stop at the first
level with enough free slots (`2^i - size`), accumulating the sizes of the
levels passed over.  The loop index never passes `used_levels`, so any fuel of
at least `used_levels + 1` is sufficient. -/
def scanLoop [BaseOps B] (s : DPGM B) : Nat → Nat → Nat → Nat × Nat
  | i, req, 0 => (i, req)
  | i, req, fuel + 1 =>
    if s.used_levels ≤ i then (i, req)
    else
      if req ≤ 2 ^ i - (getLevel s i).length then (i, req)
      else scanLoop s (i + 1) (req + (getLevel s i).length) fuel

/-- The private `insert(const Item&)`: update in place if the key is already in
the buffer level; otherwise insert in sorted position if the buffer has spare
capacity; otherwise pick the cascade's target level (allocating a fresh
deepest level if needed) and run `pairwise_logarithmic_merge`. -/
def insertItem [BaseOps B] (s : DPGM B) (x : Item B) : DPGM B :=
  let l0 := getLevel s min_level
  let ip := lbIdx l0 x.first
  if ip < l0.length && (l0.getD ip dfltItem).first == x.first then
    { s with data := s.data.set 0 (l0.set ip x) }
  else
    if l0.length < 2 ^ (min_level + 1) - 1 then
      { used_levels := if s.used_levels == min_level then min_level + 1 else s.used_levels,
        data := s.data.set 0 (insertAt l0 ip x) }
    else
      let p := scanLoop s (min_level + 1) (2 ^ (min_level + 1) - 1 + 1) (s.used_levels + 1)
      let s1 := if p.1 == s.used_levels then
          { used_levels := s.used_levels + 1, data := s.data ++ [[]] }
        else s
      pairwiseMerge s1 x (p.1 - 1) ip p.2

/-- Public `insert(key, value)`. -/
def insertKV [BaseOps B] (s : DPGM B) (k v : Nat) : DPGM B :=
  insertItem s ⟨k, BaseOps.ofValue v⟩

/-- Public `erase(key)`: insert a tombstone item `Item(key)`. -/
def eraseKey [BaseOps B] (s : DPGM B) (k : Nat) : DPGM B :=
  insertItem s ⟨k, BaseOps.tomb⟩

/-- Deduplication helper of the bulk-load constructor: keep an element iff its
key differs from the key of the previously kept element. -/
def dedupFrom (k : Nat) : List (Nat × Nat) → List (Nat × Nat)
  | [] => []
  | p :: ps => if p.1 ≠ k then p :: dedupFrom p.1 ps else dedupFrom k ps

/-- The bulk-load deduplication: keep only the first element of each group of
pairs with the same key. -/
def dedupPairs : List (Nat × Nat) → List (Nat × Nat)
  | [] => []
  | p :: ps => p :: dedupFrom p.1 ps

/-- `ceil(log2 n)` as computed by the bulk-load constructor (`0` for `n ≤ 1`),
via the recurrence `clog2 n = clog2 (ceil (n / 2)) + 1`; the argument at least
halves at every step, so any `fuel ≥ n` is sufficient. -/
def clog2 : Nat → Nat → Nat
  | _, 0 => 0
  | n, fuel + 1 => if n ≤ 1 then 0 else clog2 ((n + 1) / 2) fuel + 1

/-- The bulk-load constructor `DynamicPGMIndex(first, last)`.  It computes
`used_levels = ceil(log2 n) + 1` and writes the deduplicated input to level
`used_levels - 1`, i.e. to `data[used_levels - 1 - min_level]`.  When
`used_levels < min_level + 1` (inputs of fewer than 33 elements) that index is
negative and the C++ writes out of bounds; the model returns `none` there. -/
def build [BaseOps B] (ps : List (Nat × Nat)) : Option (DPGM B) :=
  let n := ps.length
  let used := clog2 n n + 1
  if used < min_level + 1 then none
  else
    let len := max used max_fully_allocated_level - min_level + 1
    let dat : List (List (Item B)) := List.replicate len []
    let tgt := (dedupPairs ps).map (fun p => Item.mk p.1 (BaseOps.ofValue p.2))
    some { used_levels := used, data := dat.set (used - 1 - min_level) tgt }

/-- Modelled from the spec: the search of the static learned index
(`PGMType::search`, implemented in `pgm_index.hpp`, which is outside the given
sources).  Its contract is that the position of the key, if present, lies in
the returned range `[lo, hi)`; it is modelled as the full range of the level,
the canonical instance of that contract. -/
def pgmSearch [BaseOps B] (l : List (Item B)) (k : Nat) : Nat × Nat := (0, l.length)

/-- The search window used for level `i`: levels at or above `MinIndexedLevel`
consult the learned index, shallower levels use the whole array.  (The source
writes this as two consecutive loops in `find`/`lower_bound`; both perform the
same per-level probe apart from this window.) -/
def levelRange [BaseOps B] (i : Nat) (l : List (Item B)) (k : Nat) : Nat × Nat :=
  if MinIndexedLevel ≤ i then pgmSearch l k else (0, l.length)

/-- The level loop of `find(key)`: scan levels shallowest to deepest, skip
empty levels, binary search within the level's window; the first level whose
probe hits the key decides the result (`end()` for a tombstone). -/
def findLoop [BaseOps B] (s : DPGM B) (k : Nat) : Nat → Nat → Option (Item B)
  | _, 0 => none
  | i, fuel + 1 =>
    if s.used_levels ≤ i then none
    else
      let l := getLevel s i
      if l.isEmpty then findLoop s k (i + 1) fuel
      else
        let r := levelRange i l k
        let j := lbAux l k r.1 (r.2 - r.1) (r.2 - r.1)
        if j < l.length && (l.getD j dfltItem).first == k then
          if (l.getD j dfltItem).del then none else some (l.getD j dfltItem)
        else findLoop s k (i + 1) fuel

/-- Public `find(key)`: `none` models `end()` ("absent"). -/
def find [BaseOps B] (s : DPGM B) (k : Nat) : Option (Item B) :=
  findLoop s k min_level (s.used_levels + 1)

/-- The tombstone-skipping walk `while (it != level.end() && it->deleted()) ++it`
of `lower_bound`. -/
def skipDel [BaseOps B] (l : List (Item B)) : Nat → Nat → Nat
  | j, 0 => j
  | j, fuel + 1 =>
    if h : j < l.length then
      if (l.get ⟨j, h⟩).del then skipDel l (j + 1) fuel else j
    else j

/-- A cursor into a level: `(level index, position)`; models a `LevelType`
iterator together with the level it points into. -/
def itemAt [BaseOps B] (s : DPGM B) (c : Nat × Nat) : Item B :=
  (getLevel s c.1).getD c.2 dfltItem

/-- The level loop of `lower_bound(key)`: every level is probed; within a level
the probe is the binary search followed by the tombstone skip; a probe becomes
the new best answer `lo` iff it is in range, its key is `≥ key`, and it is
strictly smaller than the current best. -/
def lbLoop [BaseOps B] (s : DPGM B) (k : Nat) : Nat → Option (Nat × Nat) → Nat → Option (Nat × Nat)
  | _, lo, 0 => lo
  | i, lo, fuel + 1 =>
    if s.used_levels ≤ i then lo
    else
      let l := getLevel s i
      if l.isEmpty then lbLoop s k (i + 1) lo fuel
      else
        let r := levelRange i l k
        let j := skipDel l (lbAux l k r.1 (r.2 - r.1) (r.2 - r.1)) (l.length + 1)
        let ok := j < l.length && k ≤ (l.getD j dfltItem).first &&
          (match lo with
           | none => true
           | some c => (l.getD j dfltItem).first < (itemAt s c).first)
        if ok then lbLoop s k (i + 1) (some (i, j)) fuel else lbLoop s k (i + 1) lo fuel

/-- Public `lower_bound(key)`, returning a cursor (`none` models `end()`). -/
def lowerBound [BaseOps B] (s : DPGM B) (k : Nat) : Option (Nat × Nat) :=
  lbLoop s k min_level none (s.used_levels + 1)

/-- `begin() = lower_bound(std::numeric_limits<K>::min())`. -/
def beginCursor [BaseOps B] (s : DPGM B) : Option (Nat × Nat) := lowerBound s 0

/-- The iterator's priority order: the comparator `queue_cmp` makes the queue a
min-queue on `(entry key, level index)`. -/
def queueLe [BaseOps B] (s : DPGM B) (c1 c2 : Nat × Nat) : Bool :=
  (itemAt s c1).first < (itemAt s c2).first ||
    ((itemAt s c1).first == (itemAt s c2).first && c1.1 ≤ c2.1)

/-- The minimum of the queue under `queueLe` (the element `top()` returns). -/
def queueMin [BaseOps B] (s : DPGM B) : List (Nat × Nat) → Option (Nat × Nat)
  | [] => none
  | c :: rest =>
    match queueMin s rest with
    | none => some c
    | some q => some (if queueLe s c q then c else q)

/-- Pop the top of the queue. -/
def popMin [BaseOps B] (s : DPGM B) (q : List (Nat × Nat)) :
    Option ((Nat × Nat) × List (Nat × Nat)) :=
  match queueMin s q with
  | none => none
  | some c => some (c, q.erase c)

/-- `queue_step`: pop the top cursor; if the level has a next entry, push it. -/
def queueStep [BaseOps B] (s : DPGM B) (q : List (Nat × Nat)) :
    Option ((Nat × Nat) × List (Nat × Nat)) :=
  match popMin s q with
  | none => none
  | some (c, q1) =>
    if c.2 + 1 < (getLevel s c.1).length then some (c, (c.1, c.2 + 1) :: q1)
    else some (c, q1)

/-- The inner loop of `advance()`: keep stepping while the queue's top has the
same key as the entry just popped (cross-level deduplication). -/
def dropEqKey [BaseOps B] (s : DPGM B) (k : Nat) : List (Nat × Nat) → Nat → List (Nat × Nat)
  | q, 0 => q
  | q, fuel + 1 =>
    match queueMin s q with
    | none => q
    | some c =>
      if (itemAt s c).first == k then
        match queueStep s q with
        | none => q
        | some (_, q1) => dropEqKey s k q1 fuel
      else q

/-- The outer do-while of `advance()`: step, deduplicate equal keys, and repeat
while the popped entry is a tombstone; an empty queue (or a final tombstone)
means the iterator became `end()`. -/
def advanceLoop [BaseOps B] (s : DPGM B) : List (Nat × Nat) → Nat →
    Option ((Nat × Nat) × List (Nat × Nat))
  | _, 0 => none
  | q, fuel + 1 =>
    match queueStep s q with
    | none => none
    | some (c, q1) =>
      let q2 := dropEqKey s (itemAt s c).first q1 (totalSize s + 1)
      if (itemAt s c).del then advanceLoop s q2 fuel else some (c, q2)

/-- `lazy_initialize_queue()`: for every nonempty level, position a cursor just
past the current entry (via `upper_bound` on the level's window) and collect it
if it is not the level's end. -/
def initQueue [BaseOps B] (s : DPGM B) (cur : Item B) : List (Nat × Nat) :=
  (List.range' min_level (s.used_levels - min_level)).filterMap (fun i =>
    let l := getLevel s i
    if l.isEmpty then none
    else
      let r := if MinIndexedLevel ≤ i then pgmSearch l cur.first else (0, l.length)
      let pos := ubAux l cur.first r.1 (r.2 - r.1) (r.2 - r.1)
      if pos < l.length then some (i, pos) else none)

/-- Successive entries produced by repeated `operator++` starting from an
already initialized queue. -/
def iterFrom [BaseOps B] (s : DPGM B) : List (Nat × Nat) → Nat → List (Item B)
  | _, 0 => []
  | q, fuel + 1 =>
    match advanceLoop s q (totalSize s + 1) with
    | none => []
    | some (c, q1) => itemAt s c :: iterFrom s q1 fuel

/-- The full traversal `begin() .. end()`: the first entry comes from
`lower_bound(K min)`; each `++` lazily initializes the queue (first time) and
advances. -/
def iterItems [BaseOps B] (s : DPGM B) : List (Item B) :=
  match beginCursor s with
  | none => []
  | some c0 => itemAt s c0 :: iterFrom s (initQueue s (itemAt s c0)) (totalSize s + 1)

/-- A public mutating operation: `insert(k, v)` or `erase(k)`. -/
inductive Op where
  | ins (k v : Nat)
  | del (k : Nat)
  deriving DecidableEq, Repr

/-- The key an operation writes. -/
def Op.key : Op → Nat
  | .ins k _ => k
  | .del k => k

/-- Apply one public operation (on the explicit-flag instantiation). -/
def applyOp (s : DPGM BaseItemB) : Op → DPGM BaseItemB
  | .ins k v => insertKV s k v
  | .del k => eraseKey s k

/-- Run a sequence of public operations from the default-constructed state. -/
def runOps (ops : List Op) : DPGM BaseItemB := ops.foldl applyOp initState

/-- The last operation of `ops` that writes key `k`. -/
def lastWriteKey (ops : List Op) (k : Nat) : Option Op :=
  (ops.filter (fun o => o.key == k)).getLast?

/-- The 128 keys `{5, 1001, ..., 1127}` in ascending order (used to fill deep
levels while keeping key 5 only in the deepest one). -/
def A0list : List Nat := 5 :: (List.range 127).map (fun t => 1001 + t)

/-- The 128 keys `{1000, ..., 1127}` in ascending order. -/
def Alist : List Nat := (List.range 128).map (fun t => 1000 + t)

/-- The keys of `Alist` in descending insertion order. -/
def AlistD : List Nat := (List.range 128).map (fun t => 1127 - t)

/-- The keys of `A0list` in descending insertion order. -/
def A0listD : List Nat := (List.range 127).map (fun t => 1127 - t) ++ [5]

/-- One round of inserts of the given keys, all with value `v`. -/
def insRoundOps (ks : List Nat) (v : Nat) : List Op := ks.map (fun k => Op.ins k v)

/-- One round of erases of the given keys. -/
def delRoundOps (ks : List Nat) : List Op := ks.map Op.del

/-- The first 64 inserts of a 128-key round. -/
def pcA (r : Nat) (ks : List Nat) : List Op := insRoundOps (ks.take 64) r

/-- The last 64 inserts of a 128-key round (the final one triggers a merge
cascade when the buffer is full). -/
def pcB (r : Nat) (ks : List Nat) : List Op := insRoundOps (ks.drop 64) r

/-- The first 64 erases of the erase round. -/
def ecA : List Op := delRoundOps (AlistD.take 64)

/-- 63 further erases, filling the buffer with 127 tombstones. -/
def ecB : List Op := delRoundOps ((AlistD.take 127).drop 64)

/-- The last 64 erases of a full erase round of `Alist` (the final one, key
1000, triggers the cascade). -/
def ec7B : List Op := delRoundOps (AlistD.drop 64)

/-- Rounds 1-4 insert `A0list` and rounds 5-7 insert `Alist` (each round split
in two 64-op chunks); after them level 7 holds `Alist` (round 7), level 8 holds
`Alist` (round 6), and the deepest level 9 holds `A0list` (round 4), so key `5`
lives only in level 9. -/
def base7ops : List Op :=
  pcA 1 A0listD ++ pcB 1 A0listD ++ pcA 2 A0listD ++ pcB 2 A0listD ++
  pcA 3 A0listD ++ pcB 3 A0listD ++ pcA 4 A0listD ++ pcB 4 A0listD ++
  pcA 5 AlistD ++ pcB 5 AlistD ++ pcA 6 AlistD ++ pcB 6 AlistD ++
  pcA 7 AlistD ++ pcB 7 AlistD

/-- `base7ops` followed by one more round of inserts of `Alist`.  The final
insert triggers a cascade that breaks at the nonempty deepest level 9 (the only
situation in which `SkipDeleted` can be true); there the final merge output
lands in `tmp_a` while `tmp_b` is installed, so the installed level 9 is the
previous intermediate run (which lacks key 5) padded with one uninitialized
slot. -/
def opsJunk : List Op := base7ops ++ pcA 8 AlistD ++ pcB 8 AlistD

/-- `base7ops` followed by 127 erases of `{1001..1127}`. -/
def ops5pre : List Op := base7ops ++ ecA ++ ecB

/-- `ops5pre` followed by the one erase (key 1000) that triggers the cascade. -/
def ops5all : List Op := ops5pre ++ [Op.del 1000]

/-- Three insert rounds of `Alist` and one erase round of `Alist`, applied
after bulk-loading `ps257`: the final cascade's deepest-level merge annihilates
every entry, so every level ends empty while `used_levels` stays 10. -/
def ops7tail : List Op :=
  pcA 2 AlistD ++ pcB 2 AlistD ++ pcA 3 AlistD ++ pcB 3 AlistD ++
  pcA 4 AlistD ++ pcB 4 AlistD ++ ecA ++ ec7B

/-- A sorted bulk input of 257 pairs whose keys deduplicate to `Alist` (130
copies of key 1000 followed by `1001..1127`), so the bulk-load constructor
creates `used_levels = 10` with the 128 distinct keys in level 9. -/
def ps257 : List (Nat × Nat) :=
  List.replicate 130 ((1000 : Nat), (1 : Nat)) ++ (List.range 127).map (fun t => (1001 + t, 1))

/-- Boolean test that a list of keys is strictly ascending (written from the
claim's words, to state sortedness of a traversal decidably). -/
def strictAsc : List Nat → Bool
  | [] => true
  | [_] => true
  | a :: b :: t => a < b && strictAsc (b :: t)

/-- A level holding the given keys (ascending) with value `v`, live. -/
def mkLvl (ks : List Nat) (v : Nat) : List (Item BaseItemB) := ks.map (fun k => ⟨k, ⟨v, false⟩⟩)

/-- A level holding tombstones for the given keys (ascending). -/
def tombLvl (ks : List Nat) : List (Item BaseItemB) := ks.map (fun k => ⟨k, ⟨0, true⟩⟩)

/-- Stage states of the `base7ops` run (after each 64-op chunk). -/
def SP1h : DPGM BaseItemB := ⟨7, [mkLvl (A0list.drop 64) 1] ++ List.replicate 8 []⟩

/-- State after round 1: level 7 holds `A0list`. -/
def SP1 : DPGM BaseItemB := ⟨8, [[], mkLvl A0list 1] ++ List.replicate 8 []⟩

/-- Mid round 2. -/
def SP2h : DPGM BaseItemB := ⟨8, [mkLvl (A0list.drop 64) 2, mkLvl A0list 1] ++ List.replicate 8 []⟩

/-- After round 2: level 8 holds `A0list`. -/
def SP2 : DPGM BaseItemB := ⟨9, [[], [], mkLvl A0list 2] ++ List.replicate 8 []⟩

/-- Mid round 3. -/
def SP3h : DPGM BaseItemB := ⟨9, [mkLvl (A0list.drop 64) 3, [], mkLvl A0list 2] ++ List.replicate 8 []⟩

/-- After round 3: levels 7 and 8 hold `A0list`. -/
def SP3 : DPGM BaseItemB := ⟨9, [[], mkLvl A0list 3, mkLvl A0list 2] ++ List.replicate 8 []⟩

/-- Mid round 4. -/
def SP4h : DPGM BaseItemB := ⟨9, [mkLvl (A0list.drop 64) 4, mkLvl A0list 3, mkLvl A0list 2] ++ List.replicate 8 []⟩

/-- After round 4: the new deepest level 9 holds `A0list` (value 4). -/
def SP4 : DPGM BaseItemB := ⟨10, [[], [], [], mkLvl A0list 4] ++ List.replicate 8 []⟩

/-- Mid round 5. -/
def SP5h : DPGM BaseItemB := ⟨10, [mkLvl (Alist.drop 64) 5, [], [], mkLvl A0list 4] ++ List.replicate 8 []⟩

/-- After round 5: level 7 holds `Alist`. -/
def SP5 : DPGM BaseItemB := ⟨10, [[], mkLvl Alist 5, [], mkLvl A0list 4] ++ List.replicate 8 []⟩

/-- Mid round 6. -/
def SP6h : DPGM BaseItemB := ⟨10, [mkLvl (Alist.drop 64) 6, mkLvl Alist 5, [], mkLvl A0list 4] ++ List.replicate 8 []⟩

/-- After round 6: level 8 holds `Alist`. -/
def SP6 : DPGM BaseItemB := ⟨10, [[], [], mkLvl Alist 6, mkLvl A0list 4] ++ List.replicate 8 []⟩

/-- Mid round 7. -/
def SP7h : DPGM BaseItemB := ⟨10, [mkLvl (Alist.drop 64) 7, [], mkLvl Alist 6, mkLvl A0list 4] ++ List.replicate 8 []⟩

/-- After round 7 (the full `base7ops` run): levels 7, 8, 9 hold `Alist` (7),
`Alist` (6), `A0list` (4). -/
def SP7 : DPGM BaseItemB := ⟨10, [[], mkLvl Alist 7, mkLvl Alist 6, mkLvl A0list 4] ++ List.replicate 8 []⟩

/-- Mid round 8. -/
def SP8h : DPGM BaseItemB := ⟨10, [mkLvl (Alist.drop 64) 8, mkLvl Alist 7, mkLvl Alist 6, mkLvl A0list 4] ++ List.replicate 8 []⟩

/-- The state after `opsJunk`: level 9 was installed from the wrong scratch
buffer, so it holds the previous merge's run (`Alist`, value 8; key 5 lost)
truncated-and-padded to the correct output length 129, whose last slot is an
uninitialized item. -/
def SJunk : DPGM BaseItemB :=
  ⟨10, [[], [], [], mkLvl Alist 8 ++ [⟨0, ⟨0, false⟩⟩]] ++ List.replicate 8 []⟩

/-- State after the first 64 erases of the erase round. -/
def SE1 : DPGM BaseItemB :=
  ⟨10, [tombLvl (Alist.drop 64), mkLvl Alist 7, mkLvl Alist 6, mkLvl A0list 4] ++ List.replicate 8 []⟩

/-- The state after `ops5pre`: the buffer holds 127 tombstones; the only live
keys reachable by iteration are 5 (level 9) and 1000 (level 7). -/
def S5pre : DPGM BaseItemB :=
  ⟨10, [tombLvl (Alist.drop 1), mkLvl Alist 7, mkLvl Alist 6, mkLvl A0list 4] ++ List.replicate 8 []⟩

/-- The state after `ops5all`: the cascade installed the truncation of the
wrong scratch buffer into level 9, so only two stale tombstones remain and the
live key 5 was lost. -/
def S5all : DPGM BaseItemB := ⟨10, [[], [], [], tombLvl [1000, 1001]] ++ List.replicate 8 []⟩

/-- The state produced by bulk-loading `ps257`: level 9 holds the 128
deduplicated keys. -/
def SB1 : DPGM BaseItemB := ⟨10, [[], [], [], mkLvl Alist 1] ++ List.replicate 6 []⟩

/-- Mid bulk-scenario round 2. -/
def SB2h : DPGM BaseItemB := ⟨10, [mkLvl (Alist.drop 64) 2, [], [], mkLvl Alist 1] ++ List.replicate 6 []⟩

/-- After bulk-scenario round 2: level 7 holds `Alist`. -/
def SB2 : DPGM BaseItemB := ⟨10, [[], mkLvl Alist 2, [], mkLvl Alist 1] ++ List.replicate 6 []⟩

/-- Mid bulk-scenario round 3. -/
def SB3h : DPGM BaseItemB := ⟨10, [mkLvl (Alist.drop 64) 3, mkLvl Alist 2, [], mkLvl Alist 1] ++ List.replicate 6 []⟩

/-- After bulk-scenario round 3: level 8 holds `Alist`. -/
def SB3 : DPGM BaseItemB := ⟨10, [[], [], mkLvl Alist 3, mkLvl Alist 1] ++ List.replicate 6 []⟩

/-- Mid bulk-scenario round 4. -/
def SB4h : DPGM BaseItemB := ⟨10, [mkLvl (Alist.drop 64) 4, [], mkLvl Alist 3, mkLvl Alist 1] ++ List.replicate 6 []⟩

/-- After bulk-scenario round 4: levels 7, 8, 9 all hold `Alist`. -/
def SB4 : DPGM BaseItemB := ⟨10, [[], mkLvl Alist 4, mkLvl Alist 3, mkLvl Alist 1] ++ List.replicate 6 []⟩

/-- Mid bulk-scenario erase round. -/
def SB5h : DPGM BaseItemB :=
  ⟨10, [tombLvl (Alist.drop 64), mkLvl Alist 4, mkLvl Alist 3, mkLvl Alist 1] ++ List.replicate 6 []⟩

/-- After the bulk-scenario erase round: the deepest-level merge annihilated
every entry, so all levels are empty while `used_levels` is still 10. -/
def SB5 : DPGM BaseItemB := ⟨10, List.replicate 10 []⟩

/-- The keys stored in a level, in storage order. -/
def keysOf (l : List (Item B)) : List Nat := l.map Item.key

/-- A level is well formed when its keys are strictly sorted (the container's
documented within-level invariant). -/
def KeySorted (l : List (Item B)) : Prop :=
  l.Pairwise (fun a b => a.first < b.first)

/-- Minimum of two optional keys (`none` = no candidate). -/
def optMinN : Option Nat → Option Nat → Option Nat
  | none, b => b
  | some a, none => some a
  | some a, some b => some (min a b)

/-- Minimum key of a list of keys, if any. -/
def minKey? : List Nat → Option Nat
  | [] => none
  | a :: t => optMinN (some a) (minKey? t)

/-- Written from the claim's words: the smallest key in the level that is
`≥ k` and not a tombstone, if any. -/
def levelCandidate [BaseOps B] (l : List (Item B)) (k : Nat) : Option Nat :=
  minKey? (keysOf (l.filter (fun e => !e.del && decide (k ≤ e.first))))

/-- Written from the claim's words: the minimum of `levelCandidate` over the
levels from `i` below `used_levels` (with the same fuel discipline as
`lbLoop`). -/
def lbSpecFrom [BaseOps B] (s : DPGM B) (k : Nat) : Nat → Nat → Option Nat
  | _, 0 => none
  | i, fuel + 1 =>
    if s.used_levels ≤ i then none
    else optMinN (levelCandidate (getLevel s i) k) (lbSpecFrom s k (i + 1) fuel)

/-- Written from the claim's words: the overall smallest non-tombstone key
`≥ k` over all levels. -/
def lowerBoundSpecKey [BaseOps B] (s : DPGM B) (k : Nat) : Option Nat :=
  lbSpecFrom s k min_level (s.used_levels + 1)

/-- Boolean test that the keys of a pair list are non-decreasing (the
sortedness precondition of the bulk-load constructor). -/
def nondecKeys : List (Nat × Nat) → Bool
  | [] => true
  | [_] => true
  | p :: q :: t => p.1 ≤ q.1 && nondecKeys (q :: t)

/-- The value of the first pair with key `k`, if any (written from the claim's
words: "the value of its first occurrence"). -/
def firstVal : List (Nat × Nat) → Nat → Option Nat
  | [], _ => none
  | p :: t, k => if p.1 = k then some p.2 else firstVal t k

/-- Sum of the sizes of levels `i ≤ t < j` of a data array. -/
def sumLenD (dat : List (List (Item B))) (i j : Nat) : Nat :=
  ((List.range' i (j - i)).map (fun t => (dat.getD (t - min_level) []).length)).sum

/-- The capacity invariant together with the auxiliary facts needed to push it
through an induction: the buffer level holds at most `2^(min_level+1) - 1`
entries, every deeper level `i` holds at most `2^i`, levels at or beyond
`used_levels` are empty, `used_levels` is at least `min_level`, and a
`used_levels` equal to `min_level` forces an empty buffer. -/
def INV [BaseOps B] (s : DPGM B) : Prop :=
  (getLevel s min_level).length ≤ 2 ^ (min_level + 1) - 1 ∧
  (∀ i, min_level < i → (getLevel s i).length ≤ 2 ^ i) ∧
  (∀ i, s.used_levels ≤ i → getLevel s i = []) ∧
  min_level ≤ s.used_levels ∧
  (s.used_levels = min_level → getLevel s min_level = [])

/-- States reachable through the public interface: the default constructor,
the bulk-load constructor (on any input it accepts), `insert` and `erase`. -/
inductive Reachable : DPGM BaseItemB → Prop
  | init : Reachable initState
  | bulk (ps : List (Nat × Nat)) (s : DPGM BaseItemB) : build ps = some s → Reachable s
  | ins (s : DPGM BaseItemB) (k v : Nat) : Reachable s → Reachable (insertKV s k v)
  | del (s : DPGM BaseItemB) (k : Nat) : Reachable s → Reachable (eraseKey s k)

/-- The tail of `pairwise_logarithmic_merge` after the scratch buffers are
seeded: run the merge loop up to `L` and install `tmp_b` (resized to the
actual output size) as level `up_to + 1`, clearing the buffer level. -/
def installMerge [BaseOps B] (used L up_to : Nat) (dat : List (List (Item B)))
    (bA bB : List (Item B)) (m : Nat) : DPGM B :=
  let r := mergeLoop used L (min_level + 1) dat bA bB m (2 ^ (min_level + 1)) (L + 1)
  ⟨used, (r.1.set 0 []).set (up_to + 1 - min_level) (resizeTo r.2.2.1 r.2.2.2)⟩

/-- A one-entry buffer state used to witness the update-in-place frame. -/
def s9 : DPGM BaseItemB := ⟨7, [[⟨5, ⟨1, false⟩⟩], [], [], [], [], [], [], [], []]⟩

set_option maxRecDepth 1000000
set_option maxHeartbeats 3200000

theorem stage_p1 : List.foldl applyOp initState (pcA 1 A0listD) = SP1h := by decide

theorem stage_p2 : List.foldl applyOp SP1h (pcB 1 A0listD) = SP1 := by decide

theorem stage_p3 : List.foldl applyOp SP1 (pcA 2 A0listD) = SP2h := by decide

theorem stage_p4 : List.foldl applyOp SP2h (pcB 2 A0listD) = SP2 := by decide

theorem stage_p5 : List.foldl applyOp SP2 (pcA 3 A0listD) = SP3h := by decide

theorem stage_p6 : List.foldl applyOp SP3h (pcB 3 A0listD) = SP3 := by decide

theorem stage_p7 : List.foldl applyOp SP3 (pcA 4 A0listD) = SP4h := by decide

theorem stage_p8 : List.foldl applyOp SP4h (pcB 4 A0listD) = SP4 := by decide

theorem stage_p9 : List.foldl applyOp SP4 (pcA 5 AlistD) = SP5h := by decide

theorem stage_p10 : List.foldl applyOp SP5h (pcB 5 AlistD) = SP5 := by decide

theorem stage_p11 : List.foldl applyOp SP5 (pcA 6 AlistD) = SP6h := by decide

theorem stage_p12 : List.foldl applyOp SP6h (pcB 6 AlistD) = SP6 := by decide

theorem stage_p13 : List.foldl applyOp SP6 (pcA 7 AlistD) = SP7h := by decide

theorem stage_p14 : List.foldl applyOp SP7h (pcB 7 AlistD) = SP7 := by decide

theorem stage_p15 : List.foldl applyOp SP7 (pcA 8 AlistD) = SP8h := by decide

theorem stage_p16 : List.foldl applyOp SP8h (pcB 8 AlistD) = SJunk := by decide

theorem stage_e1 : List.foldl applyOp SP7 ecA = SE1 := by decide

theorem stage_e2 : List.foldl applyOp SE1 ecB = S5pre := by decide

theorem stage_e3 : List.foldl applyOp S5pre [Op.del 1000] = S5all := by decide

theorem stage_b0 : build ps257 = some SB1 := by decide

theorem stage_b1 : List.foldl applyOp SB1 (pcA 2 AlistD) = SB2h := by decide

theorem stage_b2 : List.foldl applyOp SB2h (pcB 2 AlistD) = SB2 := by decide

theorem stage_b3 : List.foldl applyOp SB2 (pcA 3 AlistD) = SB3h := by decide

theorem stage_b4 : List.foldl applyOp SB3h (pcB 3 AlistD) = SB3 := by decide

theorem stage_b5 : List.foldl applyOp SB3 (pcA 4 AlistD) = SB4h := by decide

theorem stage_b6 : List.foldl applyOp SB4h (pcB 4 AlistD) = SB4 := by decide

theorem stage_b7 : List.foldl applyOp SB4 ecA = SB5h := by decide

theorem stage_b8 : List.foldl applyOp SB5h ec7B = SB5 := by decide

theorem stage_base7 : List.foldl applyOp initState base7ops = SP7 := by
  simp only [base7ops, List.foldl_append]
  rw [stage_p1, stage_p2, stage_p3, stage_p4, stage_p5, stage_p6, stage_p7, stage_p8,
    stage_p9, stage_p10, stage_p11, stage_p12, stage_p13, stage_p14]

theorem runOps_opsJunk : runOps opsJunk = SJunk := by
  simp only [runOps, opsJunk, List.foldl_append]
  rw [stage_base7, stage_p15, stage_p16]

theorem runOps_ops5pre : runOps ops5pre = S5pre := by
  simp only [runOps, ops5pre, List.foldl_append]
  rw [stage_base7, stage_e1, stage_e2]

theorem runOps_ops5all : runOps ops5all = S5all := by
  simp only [runOps, ops5all, ops5pre, List.foldl_append]
  rw [stage_base7, stage_e1, stage_e2, stage_e3]

theorem foldl_ops7tail : List.foldl applyOp SB1 ops7tail = SB5 := by
  simp only [ops7tail, List.foldl_append]
  rw [stage_b1, stage_b2, stage_b3, stage_b4, stage_b5, stage_b6, stage_b7, stage_b8]

/-- C1: refuted by the code.  `opsJunk` is a sequence of 1024 public
insert/erase operations whose last write for key 5 is `insert(5, 4)`, yet
`find(5)` afterwards returns `end()` (absent): the final merge cascade breaks
at the nonempty deepest level 9, and `pairwise_logarithmic_merge` installs
scratch buffer `tmp_b` although the final merge (the one with
`SkipDeleted = true`) wrote its output to `tmp_a`, so the installed level is
the previous intermediate run, which has lost key 5. -/
theorem c1_find_loses_last_write :
    lastWriteKey opsJunk 5 = some (Op.ins 5 4) ∧ find (runOps opsJunk) 5 = none := by
  constructor
  · decide
  · rw [runOps_opsJunk]
    decide

/-- C3: refuted by the code.  After the 1024 public operations of `opsJunk`,
full iteration produces the key sequence `1000, ..., 1127, 0`: the wrongly
installed level 9 ends with an uninitialized padding slot (modelled as the
default item with key 0), which the iterator emits after key 1127, so the
traversal is not strictly ascending. -/
theorem c3_iteration_not_sorted :
    strictAsc ((iterItems (runOps opsJunk)).map Item.key) = false := by
  rw [runOps_opsJunk]
  decide

/-- C5: refuted by the code.  Before the cascade triggered by the final
`erase(1000)` of `ops5all`, full iteration reaches 2 live entries (keys 5 and
1000, the latter live, so the expected count afterwards is 1); after the
cascade the count is 0: the wrongly installed level 9 lost the live entry for
key 5 (and retained two stale tombstones). -/
theorem c5_cascade_loses_live_entry :
    (iterItems (runOps ops5pre)).length = 2 ∧
    find (runOps ops5pre) 1000 = some ⟨1000, ⟨7, false⟩⟩ ∧
    runOps ops5all = eraseKey (runOps ops5pre) 1000 ∧
    (iterItems (runOps ops5all)).length = 0 := by
  rw [runOps_ops5pre, runOps_ops5all]
  exact ⟨by decide, by decide, by decide, by decide⟩

/-- C7: refuted by the code.  Bulk-loading `ps257` and running `ops7tail`
(three insert rounds and one erase round) reaches a state in which every level
is empty but `used_levels` is still 10, not `min_level`: the deepest-level
merge annihilated all entries and nothing ever decreases `used_levels`,
contradicting the documented invariant of the `used_levels` field. -/
theorem c7_used_levels_not_tracking :
    build ps257 = some SB1 ∧ List.foldl applyOp SB1 ops7tail = SB5 ∧
    SB5.used_levels = 10 ∧ (∀ l ∈ SB5.data, l = []) ∧ SB5.used_levels ≠ min_level := by
  refine ⟨stage_b0, foldl_ops7tail, by decide, by decide, by decide⟩


-- ===== basic list helpers =====

theorem getD_set_ne {α : Type} (l : List α) (m n : Nat) (a d : α) (h : m ≠ n) :
    (l.set m a).getD n d = l.getD n d := by
  induction l generalizing m n with
  | nil => rfl
  | cons x t ih =>
    cases m with
    | zero => cases n with
      | zero => exact absurd rfl h
      | succ n => rfl
    | succ m => cases n with
      | zero => rfl
      | succ n => simpa using ih m n (by omega)

theorem getD_set_self {α : Type} (l : List α) (n : Nat) (a d : α) :
    (l.set n a).getD n d = if n < l.length then a else d := by
  induction l generalizing n with
  | nil => simp
  | cons x t ih =>
    cases n with
    | zero => simp
    | succ n => simpa using ih n

theorem getD_append_default {α : Type} (l : List α) (d : α) (n : Nat) :
    (l ++ [d]).getD n d = l.getD n d := by
  induction l generalizing n with
  | nil => cases n <;> simp [List.getD]
  | cons x t ih =>
    cases n with
    | zero => rfl
    | succ n => simpa using ih n

theorem getD_replicate_self {α : Type} (n m : Nat) (d : α) :
    (List.replicate n d).getD m d = d := by
  induction n generalizing m with
  | zero => cases m <;> rfl
  | succ n ih =>
    cases m with
    | zero => rfl
    | succ m => simp only [List.replicate, List.getD_cons_succ]; exact ih m

theorem length_insertAt (l : List (Item B)) (i : Nat) (x : Item B) :
    (insertAt l i x).length = l.length + 1 := by
  simp [insertAt]
  omega

theorem length_resizeTo [BaseOps B] (l : List (Item B)) (n : Nat) :
    (resizeTo l n).length = n := by
  simp [resizeTo]
  omega

theorem length_mergeRuns [BaseOps B] (skip : Bool) :
    ∀ (fuel : Nat) (l1 l2 : List (Item B)),
      (mergeRuns skip l1 l2 fuel).length ≤ l1.length + l2.length := by
  intro fuel
  induction fuel with
  | zero => intro l1 l2; simp [mergeRuns]
  | succ fuel ih =>
    intro l1 l2
    match l1, l2 with
    | [], l2 => simp [mergeRuns]
    | a :: t1, [] => simp [mergeRuns]
    | a :: t1, b :: t2 =>
      simp only [mergeRuns]
      split
      · have := ih (a :: t1) t2
        simp at this ⊢
        omega
      · split
        · have := ih t1 (b :: t2)
          simp at this ⊢
          omega
        · split
          · have := ih t1 t2
            simp at this ⊢
            omega
          · have := ih t1 t2
            simp at this ⊢
            omega

-- ===== sortedness and binary search =====

theorem strictAsc_iff_chain : ∀ ks : List Nat, strictAsc ks = true ↔ List.Chain' (fun a b => a < b) ks
  | [] => by simp [strictAsc]
  | [a] => by simp [strictAsc]
  | a :: b :: t => by
    rw [strictAsc, List.chain'_cons, Bool.and_eq_true, strictAsc_iff_chain (b :: t)]
    simp

theorem keySorted_iff_strictAsc [BaseOps B] (l : List (Item B)) :
    KeySorted l ↔ strictAsc (keysOf l) = true := by
  rw [strictAsc_iff_chain, List.chain'_iff_pairwise, keysOf, List.pairwise_map, KeySorted]
  rfl

theorem getD_eq_get {α : Type} (l : List α) (d : α) (n : Nat) (h : n < l.length) :
    l.getD n d = l.get ⟨n, h⟩ := by
  induction l generalizing n with
  | nil => simp at h
  | cons x t ih =>
    cases n with
    | zero => rfl
    | succ n => simpa using ih n (by simpa using h)

theorem sorted_getD_mono [BaseOps B] (l : List (Item B)) (h : KeySorted l) (i j : Nat)
    (hij : i ≤ j) (hj : j < l.length) :
    (l.getD i dfltItem).first ≤ (l.getD j dfltItem).first := by
  rcases Nat.eq_or_lt_of_le hij with rfl | hlt
  · exact Nat.le_refl _
  · have hi : i < l.length := Nat.lt_trans hlt hj
    rw [getD_eq_get l _ i hi, getD_eq_get l _ j hj]
    exact Nat.le_of_lt (List.pairwise_iff_get.mp h ⟨i, hi⟩ ⟨j, hj⟩ hlt)

theorem lbAux_spec [BaseOps B] (l : List (Item B)) (k : Nat) (hs : KeySorted l) :
    ∀ (fuel len first : Nat), len ≤ fuel → first + len ≤ l.length →
      (∀ j, j < first → (l.getD j dfltItem).first < k) →
      (∀ j, first + len ≤ j → j < l.length → k ≤ (l.getD j dfltItem).first) →
      first ≤ lbAux l k first len fuel ∧ lbAux l k first len fuel ≤ first + len ∧
      (∀ j, j < lbAux l k first len fuel → (l.getD j dfltItem).first < k) ∧
      (∀ j, lbAux l k first len fuel ≤ j → j < l.length → k ≤ (l.getD j dfltItem).first) := by
  have hzero : ∀ (fuel first : Nat), lbAux l k first 0 fuel = first := by
    intro fuel first
    cases fuel <;> simp [lbAux]
  intro fuel
  induction fuel with
  | zero =>
    intro len first hlen _ hpre hpost
    have h0 : len = 0 := Nat.le_zero.mp hlen
    subst h0
    rw [hzero]
    exact ⟨Nat.le_refl _, Nat.le_refl _, hpre, fun j hj hjl => hpost j (by omega) hjl⟩
  | succ fuel ih =>
    intro len first hlen hrange hpre hpost
    by_cases h0 : len = 0
    · subst h0
      rw [hzero]
      exact ⟨Nat.le_refl _, Nat.le_refl _, hpre, fun j hj hjl => hpost j (by omega) hjl⟩
    · rw [lbAux, if_neg h0]
      simp only
      by_cases hmid : (l.getD (first + len / 2) dfltItem).first < k
      · rw [if_pos hmid]
        have hrec := ih (len - len / 2 - 1) (first + len / 2 + 1) (by omega) (by omega)
          (fun j hj => by
            by_cases hjf : j < first
            · exact hpre j hjf
            · exact Nat.lt_of_le_of_lt
                (sorted_getD_mono l hs j (first + len / 2) (by omega) (by omega)) hmid)
          (fun j hj hjl => hpost j (by omega) hjl)
        refine ⟨by omega, by omega, hrec.2.2.1, hrec.2.2.2⟩
      · rw [if_neg hmid]
        have hkmid : k ≤ (l.getD (first + len / 2) dfltItem).first := Nat.le_of_not_lt hmid
        have hrec := ih (len / 2) first (by omega) (by omega) hpre
          (fun j hj hjl => Nat.le_trans hkmid
            (sorted_getD_mono l hs (first + len / 2) j (by omega) hjl))
        refine ⟨hrec.1, by omega, hrec.2.2.1, hrec.2.2.2⟩

theorem lbIdx_spec [BaseOps B] (l : List (Item B)) (k : Nat) (hs : KeySorted l) :
    lbIdx l k ≤ l.length ∧
    (∀ j, j < lbIdx l k → (l.getD j dfltItem).first < k) ∧
    (∀ j, lbIdx l k ≤ j → j < l.length → k ≤ (l.getD j dfltItem).first) := by
  have h := lbAux_spec l k hs l.length l.length 0 (Nat.le_refl _) (by omega)
    (fun j hj => by omega) (fun j hj hjl => by omega)
  exact ⟨by simpa [lbIdx] using h.2.1, by simpa [lbIdx] using h.2.2.1,
    by simpa [lbIdx] using h.2.2.2⟩

theorem lbIdx_mem [BaseOps B] (l : List (Item B)) (k : Nat) (hs : KeySorted l)
    (hk : k ∈ keysOf l) :
    lbIdx l k < l.length ∧ (l.getD (lbIdx l k) dfltItem).first = k := by
  obtain ⟨x, hxl, hxk⟩ := List.mem_map.mp hk
  obtain ⟨n, hn, hxn⟩ := List.mem_iff_getElem.mp hxl
  have hkn : (l.getD n dfltItem).first = k := by
    rw [getD_eq_get l _ n hn]
    simpa [List.get_eq_getElem, hxn] using hxk
  obtain ⟨hle, hpre, hpost⟩ := lbIdx_spec l k hs
  have hrn : lbIdx l k ≤ n := by
    by_contra hlt
    exact absurd hkn (Nat.ne_of_lt (hpre n (by omega)))
  have h1 : lbIdx l k < l.length := Nat.lt_of_le_of_lt hrn hn
  refine ⟨h1, Nat.le_antisymm ?_ (hpost _ (Nat.le_refl _) h1)⟩
  calc (l.getD (lbIdx l k) dfltItem).first
      ≤ (l.getD n dfltItem).first := sorted_getD_mono l hs _ n hrn hn
    _ = k := hkn

-- ===== C9: update-in-place frame =====

theorem insertItem_update_in_place [BaseOps B] (s : DPGM B) (k v : Nat)
    (hs : KeySorted (getLevel s min_level))
    (hk : k ∈ keysOf (getLevel s min_level)) :
    insertItem s ⟨k, BaseOps.ofValue v⟩ =
      { s with data := s.data.set 0 ((getLevel s min_level).set
          (lbIdx (getLevel s min_level) k) ⟨k, BaseOps.ofValue v⟩) } := by
  obtain ⟨h1, h2⟩ := lbIdx_mem (getLevel s min_level) k hs hk
  have hc : (decide (lbIdx (getLevel s min_level) k < (getLevel s min_level).length) &&
      (((getLevel s min_level).getD (lbIdx (getLevel s min_level) k) dfltItem).first ==
        (⟨k, BaseOps.ofValue v⟩ : Item B).first)) = true := by
    rw [getD_eq_get _ _ _ h1] at h2
    simp only [List.get_eq_getElem] at h2
    simp [h1, h2]
  rw [insertItem]
  simp only [hc, if_true]



/-- C9: when key `k` already has an entry in the buffer level, `insert(k, v)`
overwrites that entry's value/flag in place and changes nothing else: the
state equals the original with only that one buffer slot rewritten, so
`used_levels` is unchanged, every deeper level is untouched, the buffer size
does not change and no merge cascade runs. -/
theorem c9_update_in_place_frame [BaseOps B] (s : DPGM B) (k v : Nat)
    (hs : KeySorted (getLevel s min_level))
    (hk : k ∈ keysOf (getLevel s min_level)) :
    insertItem s ⟨k, BaseOps.ofValue v⟩ =
      { s with data := s.data.set 0 ((getLevel s min_level).set
          (lbIdx (getLevel s min_level) k) ⟨k, BaseOps.ofValue v⟩) } ∧
    (insertItem s ⟨k, BaseOps.ofValue v⟩).used_levels = s.used_levels ∧
    (∀ i, min_level < i → getLevel (insertItem s ⟨k, BaseOps.ofValue v⟩) i = getLevel s i) ∧
    (getLevel (insertItem s ⟨k, BaseOps.ofValue v⟩) min_level).length =
      (getLevel s min_level).length := by
  have h := insertItem_update_in_place s k v hs hk
  refine ⟨h, by rw [h], ?_, ?_⟩
  · intro i hi
    rw [h]
    show (s.data.set 0 _).getD (i - min_level) [] = s.data.getD (i - min_level) []
    exact getD_set_ne _ _ _ _ _ (by simp [min_level] at hi ⊢; omega)
  · rw [h]
    show ((s.data.set 0 _).getD 0 []).length = (s.data.getD 0 []).length
    rw [getD_set_self]
    split
    · simp [getLevel]
    · next hlen =>
      have : s.data = [] := by
        cases hd : s.data with
        | nil => rfl
        | cons a t => rw [hd] at hlen; simp at hlen
      simp [getLevel, this]

/-- C10: with a pointer value type, deletion is a reserved sentinel value, so
`insert(k, sentinel)` produces a tombstoned item and is literally the same
operation as `erase(k)`; `find(k)` afterwards agrees with the erased case. -/
theorem c10_sentinel_insert_is_erase (s : DPGM BaseItemA) (k : Nat) :
    (⟨k, BaseOps.ofValue tombstoneA⟩ : Item BaseItemA).del = true ∧
    insertKV s k tombstoneA = eraseKey s k ∧
    find (insertKV s k tombstoneA) k = find (eraseKey s k) k :=
  ⟨rfl, rfl, rfl⟩

-- ===== C4: lower_bound =====

theorem levelRange_eq [BaseOps B] (i : Nat) (l : List (Item B)) (k : Nat) :
    levelRange i l k = (0, l.length) := by
  rw [levelRange, pgmSearch]
  split <;> rfl

theorem skipDel_spec [BaseOps B] (l : List (Item B)) :
    ∀ (fuel j : Nat), l.length + 1 - j ≤ fuel →
      j ≤ skipDel l j fuel ∧
      (j ≤ l.length → skipDel l j fuel ≤ l.length) ∧
      (∀ i, j ≤ i → i < skipDel l j fuel → (l.getD i dfltItem).del = true) ∧
      (skipDel l j fuel < l.length → (l.getD (skipDel l j fuel) dfltItem).del = false) := by
  intro fuel
  induction fuel with
  | zero =>
    intro j hj
    simp only [skipDel]
    exact ⟨Nat.le_refl _, fun h => by omega, fun i h1 h2 => by omega, fun h => by omega⟩
  | succ fuel ih =>
    intro j hj
    rw [skipDel]
    by_cases hjl : j < l.length
    · rw [dif_pos hjl]
      by_cases hdel : (l.get ⟨j, hjl⟩).del = true
      · rw [if_pos hdel]
        have hrec := ih (j + 1) (by omega)
        refine ⟨by omega, fun _ => hrec.2.1 (by omega), ?_, hrec.2.2.2⟩
        intro i h1 h2
        rcases Nat.eq_or_lt_of_le h1 with rfl | hlt
        · rw [getD_eq_get _ _ _ hjl]; exact hdel
        · exact hrec.2.2.1 i (by omega) h2
      · rw [if_neg hdel]
        refine ⟨Nat.le_refl _, fun _ => by omega, fun i h1 h2 => by omega, fun _ => ?_⟩
        rw [getD_eq_get _ _ _ hjl]
        exact Bool.not_eq_true _ ▸ hdel
    · rw [dif_neg hjl]
      exact ⟨Nat.le_refl _, fun h => by omega, fun i h1 h2 => by omega, fun h => by omega⟩

theorem optMinN_none_right (a : Option Nat) : optMinN a none = a := by
  cases a <;> rfl

theorem minKey?_char : ∀ ks : List Nat,
    (minKey? ks = none ∧ ks = []) ∨
    (∃ m, minKey? ks = some m ∧ m ∈ ks ∧ ∀ b ∈ ks, m ≤ b) := by
  intro ks
  induction ks with
  | nil => exact Or.inl ⟨rfl, rfl⟩
  | cons x t ih =>
    right
    rcases ih with ⟨hn, rfl⟩ | ⟨m, hm, hmem, hle⟩
    · exact ⟨x, by rw [minKey?, hn]; rfl, List.mem_cons_self x [], by simp⟩
    · rcases Nat.le_total x m with hxm | hxm
      · refine ⟨x, by rw [minKey?, hm]; simp [optMinN, Nat.min_eq_left hxm],
          List.mem_cons_self x t, ?_⟩
        intro b hb
        rcases List.mem_cons.mp hb with rfl | hbt
        · exact Nat.le_refl _
        · exact Nat.le_trans hxm (hle b hbt)
      · refine ⟨m, by rw [minKey?, hm]; simp [optMinN, Nat.min_eq_right hxm],
          List.mem_cons_of_mem _ hmem, ?_⟩
        intro b hb
        rcases List.mem_cons.mp hb with rfl | hbt
        · exact hxm
        · exact hle b hbt

theorem minKey?_eq_min (ks : List Nat) (a : Nat) (ha : a ∈ ks) (hmin : ∀ b ∈ ks, a ≤ b) :
    minKey? ks = some a := by
  rcases minKey?_char ks with ⟨_, rfl⟩ | ⟨m, hm, hmem, hle⟩
  · simp at ha
  · rw [hm, Nat.le_antisymm (hle a ha) (hmin m hmem)]

theorem getD_mem [BaseOps B] (l : List (Item B)) (n : Nat) (h : n < l.length) :
    l.getD n dfltItem ∈ l := by
  rw [getD_eq_get _ _ _ h]
  exact l.get_mem _ _

theorem mem_index [BaseOps B] (l : List (Item B)) (x : Item B) (hx : x ∈ l) :
    ∃ n, n < l.length ∧ l.getD n dfltItem = x := by
  obtain ⟨n, hn, hxn⟩ := List.mem_iff_getElem.mp hx
  exact ⟨n, hn, by rw [getD_eq_get _ _ _ hn]; simpa using hxn⟩

theorem levelCandidate_eq [BaseOps B] (l : List (Item B)) (k : Nat) (hs : KeySorted l) :
    levelCandidate l k =
      if skipDel l (lbIdx l k) (l.length + 1) < l.length
      then some ((l.getD (skipDel l (lbIdx l k) (l.length + 1)) dfltItem).first)
      else none := by
  obtain ⟨hrle, hpre, hpost⟩ := lbIdx_spec l k hs
  obtain ⟨hp1, hp2, hp3, hp4⟩ := skipDel_spec l (l.length + 1) (lbIdx l k) (by omega)
  set r := lbIdx l k with hr
  set p := skipDel l r (l.length + 1) with hp
  by_cases hplen : p < l.length
  · rw [if_pos hplen]
    apply minKey?_eq_min
    · apply List.mem_map_of_mem
      apply List.mem_filter.mpr
      refine ⟨getD_mem l p hplen, ?_⟩
      simp only [Bool.and_eq_true, Bool.not_eq_true', decide_eq_true_eq]
      exact ⟨hp4 hplen, hpost p hp1 hplen⟩
    · intro b hb
      obtain ⟨x, hxf, hxb⟩ := List.mem_map.mp hb
      obtain ⟨hxl, hxp⟩ := List.mem_filter.mp hxf
      simp only [Bool.and_eq_true, Bool.not_eq_true', decide_eq_true_eq] at hxp
      obtain ⟨n, hn, hnx⟩ := mem_index l x hxl
      have hnr : r ≤ n := by
        by_contra hc
        have := hpre n (by omega)
        rw [hnx] at this
        omega
      have hnp : p ≤ n := by
        by_contra hc
        have := hp3 n hnr (by omega)
        rw [hnx] at this
        rw [this] at hxp
        simp at hxp
      have := sorted_getD_mono l hs p n hnp hn
      rw [hnx] at this
      rw [← hxb]
      exact this
  · rw [if_neg hplen]
    have hfil : l.filter (fun e => !e.del && decide (k ≤ e.first)) = [] := by
      rw [List.filter_eq_nil_iff]
      intro x hxl
      obtain ⟨n, hn, hnx⟩ := mem_index l x hxl
      simp only [Bool.and_eq_true, Bool.not_eq_true', decide_eq_true_eq, not_and]
      intro hlive
      by_cases hnr : n < r
      · have := hpre n hnr
        rw [hnx] at this
        omega
      · have := hp3 n (by omega) (by omega)
        rw [hnx] at this
        rw [this] at hlive
        simp at hlive
    rw [levelCandidate, keysOf, hfil]
    rfl

theorem optMinN_absorb_left (a b : Nat) (c : Option Nat) (h : b ≤ a) :
    optMinN (some a) (optMinN (some b) c) = optMinN (some b) c := by
  cases c with
  | none => simp [optMinN, Nat.min_eq_right h]
  | some n =>
    simp only [optMinN, Option.some.injEq]
    omega

theorem optMinN_absorb_right (a b : Nat) (c : Option Nat) (h : a ≤ b) :
    optMinN (some a) (optMinN (some b) c) = optMinN (some a) c := by
  cases c with
  | none => simp [optMinN, Nat.min_eq_left h]
  | some n =>
    simp only [optMinN, Option.some.injEq]
    omega

theorem lbLoop_spec [BaseOps B] (s : DPGM B) (k : Nat)
    (hs : ∀ i, i < s.used_levels → KeySorted (getLevel s i)) :
    ∀ (fuel i : Nat) (lo : Option (Nat × Nat)),
      (∀ c, lo = some c → (itemAt s c).del = false ∧ k ≤ (itemAt s c).first) →
      ((lbLoop s k i lo fuel).map (fun c => (itemAt s c).first) =
        optMinN (lo.map (fun c => (itemAt s c).first)) (lbSpecFrom s k i fuel)) ∧
      (∀ c, lbLoop s k i lo fuel = some c →
        (itemAt s c).del = false ∧ k ≤ (itemAt s c).first) := by
  intro fuel
  induction fuel with
  | zero =>
    intro i lo hlo
    refine ⟨?_, hlo⟩
    simp [lbLoop, lbSpecFrom, optMinN_none_right]
  | succ fuel ih =>
    intro i lo hlo
    rw [lbLoop, lbSpecFrom]
    by_cases hiu : s.used_levels ≤ i
    · rw [if_pos hiu, if_pos hiu, optMinN_none_right]
      exact ⟨rfl, hlo⟩
    · rw [if_neg hiu, if_neg hiu]
      simp only
      have hsi : KeySorted (getLevel s i) := hs i (by omega)
      by_cases hemp : (getLevel s i).isEmpty
      · rw [if_pos hemp]
        have hnil : getLevel s i = [] := List.isEmpty_iff.mp hemp
        have hcand : levelCandidate (getLevel s i) k = none := by
          rw [hnil]; rfl
        rw [hcand]
        have := ih (i + 1) lo hlo
        exact ⟨this.1, this.2⟩
      · rw [if_neg hemp]
        rw [levelRange_eq]
        simp only [Nat.sub_zero]
        rw [levelCandidate_eq _ _ hsi]
        set l := getLevel s i with hl
        set p := skipDel l (lbAux l k 0 l.length l.length) (l.length + 1) with hpdef
        have hplb : skipDel l (lbIdx l k) (l.length + 1) = p := by rw [lbIdx]
        rw [hplb]
        by_cases hplen : p < l.length
        · rw [if_pos hplen]
          obtain ⟨hrle, hpre, hpost⟩ := lbIdx_spec l k hsi
          obtain ⟨hp1, hp2, hp3, hp4⟩ := skipDel_spec l (l.length + 1) (lbIdx l k) (by omega)
          rw [← lbIdx] at hpdef
          rw [← hpdef] at hp1 hp2 hp3 hp4
          have hlive : (l.getD p dfltItem).del = false := hp4 hplen
          have hkle : k ≤ (l.getD p dfltItem).first := hpost p hp1 hplen
          have hitem : itemAt s (i, p) = l.getD p dfltItem := rfl
          cases lo with
          | none =>
            have hok : (decide (p < l.length) && decide (k ≤ (l.getD p dfltItem).first) &&
                true) = true := by
              simp only [Bool.and_eq_true, decide_eq_true_eq, and_true]
              exact ⟨hplen, hkle⟩
            rw [hok]
            simp only [if_true]
            have hrec := ih (i + 1) (some (i, p))
              (fun c hc => by
                cases hc
                exact ⟨hlive, hkle⟩)
            refine ⟨?_, hrec.2⟩
            rw [hrec.1]
            simp [optMinN, hitem]
          | some c0 =>
            have hc0 := hlo c0 rfl
            by_cases hcmp : (l.getD p dfltItem).first < (itemAt s c0).first
            · have hok : (decide (p < l.length) && decide (k ≤ (l.getD p dfltItem).first) &&
                  decide ((l.getD p dfltItem).first < (itemAt s c0).first)) = true := by
                simp only [Bool.and_eq_true, decide_eq_true_eq]
                exact ⟨⟨hplen, hkle⟩, hcmp⟩
              rw [hok]
              simp only [if_true]
              have hrec := ih (i + 1) (some (i, p))
                (fun c hc => by cases hc; exact ⟨hlive, hkle⟩)
              refine ⟨?_, hrec.2⟩
              rw [hrec.1]
              simp only [Option.map, hitem]
              rw [optMinN_absorb_left _ _ _ (Nat.le_of_lt hcmp)]
            · have hok : (decide (p < l.length) && decide (k ≤ (l.getD p dfltItem).first) &&
                  decide ((l.getD p dfltItem).first < (itemAt s c0).first)) = false := by
                have hd : decide ((l.getD p dfltItem).first < (itemAt s c0).first) = false := by
                  simp only [decide_eq_false_iff_not]
                  exact hcmp
                rw [hd, Bool.and_false]
              rw [hok]
              simp only [Bool.false_eq_true, if_false]
              have hrec := ih (i + 1) (some c0) hlo
              refine ⟨?_, hrec.2⟩
              rw [hrec.1]
              simp only [Option.map, hitem]
              rw [optMinN_absorb_right _ _ _ (Nat.le_of_not_lt hcmp)]
        · rw [if_neg hplen]
          have hd : decide (p < l.length) = false := by
            simp only [decide_eq_false_iff_not]
            exact hplen
          rw [hd, Bool.false_and, Bool.false_and]
          simp only [Bool.false_eq_true, if_false]
          have hrec := ih (i + 1) lo hlo
          exact ⟨hrec.1, hrec.2⟩

/-- C4: `lower_bound(k)` considers all populated levels; within each level it
takes the smallest non-tombstone key `≥ k` that follows the tombstoned prefix
of the level's search window; the returned iterator holds the overall minimum
such key across levels (`none` if no level has one), and when it returns a
cursor, that cursor points at a live entry with key `≥ k`. -/
theorem c4_lower_bound_minimum [BaseOps B] (s : DPGM B) (k : Nat)
    (hs : ∀ i, i < s.used_levels → KeySorted (getLevel s i)) :
    ((lowerBound s k).map (fun c => (itemAt s c).first) = lowerBoundSpecKey s k) ∧
    (∀ c, lowerBound s k = some c →
      (itemAt s c).del = false ∧ k ≤ (itemAt s c).first) := by
  have h := lbLoop_spec s k hs (s.used_levels + 1) min_level none (fun c hc => by cases hc)
  exact ⟨h.1, h.2⟩

-- ===== C2: merge characterization =====

theorem mem_keysOf [BaseOps B] (l : List (Item B)) (x : Item B) (hx : x ∈ l) :
    x.first ∈ keysOf l := List.mem_map_of_mem (f := Item.key) hx

theorem keysOf_lt [BaseOps B] (t : List (Item B)) (a : Item B)
    (h : ∀ y ∈ t, a.first < y.first) (kk : Nat) (hkk : kk ∈ keysOf t) : a.first < kk := by
  obtain ⟨y, hy, rfl⟩ := List.mem_map.mp hkk
  exact h y hy

theorem keysOf_cons [BaseOps B] (y : Item B) (t : List (Item B)) :
    keysOf (y :: t) = y.first :: keysOf t := rfl

theorem mergeRuns_mem [BaseOps B] (skip : Bool) :
    ∀ (fuel : Nat) (l1 l2 : List (Item B)), l1.length + l2.length ≤ fuel →
      KeySorted l1 → KeySorted l2 → ∀ x : Item B,
      (x ∈ mergeRuns skip l1 l2 fuel ↔
        (x ∈ l1 ∧ ¬(skip = true ∧ x.del = true ∧ x.first ∈ keysOf l2)) ∨
        (x ∈ l2 ∧ x.first ∉ keysOf l1)) := by
  intro fuel
  induction fuel with
  | zero =>
    intro l1 l2 hlen h1 h2 x
    have : l1 = [] := List.length_eq_zero.mp (by omega)
    have : l2 = [] := List.length_eq_zero.mp (by omega)
    subst_vars
    simp [mergeRuns]
  | succ fuel ih =>
    intro l1 l2 hlen h1 h2 x
    match l1, l2 with
    | [], l2 => simp [mergeRuns, keysOf]
    | a :: t1, [] => simp [mergeRuns, keysOf]
    | a :: t1, b :: t2 =>
      have ha1 : ∀ y ∈ t1, a.first < y.first := (List.pairwise_cons.mp h1).1
      have hb2 : ∀ y ∈ t2, b.first < y.first := (List.pairwise_cons.mp h2).1
      have h1t : KeySorted t1 := (List.pairwise_cons.mp h1).2
      have h2t : KeySorted t2 := (List.pairwise_cons.mp h2).2
      simp only [mergeRuns]
      simp only [List.length_cons] at hlen
      by_cases hba : b.first < a.first
      · rw [if_pos hba]
        have IH := ih (a :: t1) t2 (by simp; omega) h1 h2t x
        rw [List.mem_cons, IH]
        have hlt : ∀ y : Item B, y ∈ a :: t1 → b.first < y.first := by
          intro y hy
          rcases List.mem_cons.mp hy with rfl | hyt
          · exact hba
          · exact Nat.lt_trans hba (ha1 y hyt)
        have hbk : b.first ∉ keysOf (a :: t1) := by
          intro hmem
          obtain ⟨y, hy, hyk⟩ := List.mem_map.mp hmem
          have h1y := hlt y hy
          rw [Item.key] at hyk
          omega
        constructor
        · rintro (rfl | h | h)
          · exact Or.inr ⟨List.mem_cons_self _ _, hbk⟩
          · refine Or.inl ⟨h.1, fun hc => h.2 ⟨hc.1, hc.2.1, ?_⟩⟩
            have hxk : b.first < x.first := hlt x h.1
            have hm2 := hc.2.2
            rw [keysOf_cons] at hm2
            rcases List.mem_cons.mp hm2 with heq | hm
            · omega
            · exact hm
          · exact Or.inr ⟨List.mem_cons_of_mem b h.1, h.2⟩
        · rintro (h | h)
          · refine Or.inr (Or.inl ⟨h.1, fun hc => h.2 ⟨hc.1, hc.2.1, ?_⟩⟩)
            rw [keysOf_cons]
            exact List.mem_cons_of_mem _ hc.2.2
          · rcases List.mem_cons.mp h.1 with rfl | hm
            · exact Or.inl rfl
            · exact Or.inr (Or.inr ⟨hm, h.2⟩)
      · rw [if_neg hba]
        by_cases hab : a.first < b.first
        · rw [if_pos hab]
          have IH := ih t1 (b :: t2) (by simp; omega) h1t h2 x
          rw [List.mem_cons, IH]
          have hgt : ∀ y : Item B, y ∈ b :: t2 → a.first < y.first := by
            intro y hy
            rcases List.mem_cons.mp hy with rfl | hyt
            · exact hab
            · exact Nat.lt_trans hab (hb2 y hyt)
          have hak : a.first ∉ keysOf (b :: t2) := by
            intro hmem
            obtain ⟨y, hy, hyk⟩ := List.mem_map.mp hmem
            have h1y := hgt y hy
            rw [Item.key] at hyk
            omega
          constructor
          · rintro (rfl | h | h)
            · exact Or.inl ⟨List.mem_cons_self _ _, fun hc => hak hc.2.2⟩
            · exact Or.inl ⟨List.mem_cons_of_mem a h.1, h.2⟩
            · refine Or.inr ⟨h.1, ?_⟩
              rw [keysOf_cons]
              intro hm
              rcases List.mem_cons.mp hm with heq | hm2
              · have := hgt x h.1
                omega
              · exact h.2 hm2
          · rintro (h | h)
            · rcases List.mem_cons.mp h.1 with rfl | hm
              · exact Or.inl rfl
              · exact Or.inr (Or.inl ⟨hm, h.2⟩)
            · refine Or.inr (Or.inr ⟨h.1, fun hm => h.2 ?_⟩)
              rw [keysOf_cons]
              exact List.mem_cons_of_mem _ hm
        · rw [if_neg hab]
          have hkey : a.first = b.first := by omega
          by_cases hsd : (skip && BaseOps.deleted a.base) = true
          · rw [if_pos hsd]
            have IH := ih t1 t2 (by omega) h1t h2t x
            rw [IH]
            simp only [Bool.and_eq_true] at hsd
            constructor
            · rintro (h | h)
              · refine Or.inl ⟨List.mem_cons_of_mem a h.1, fun hc => h.2 ⟨hc.1, hc.2.1, ?_⟩⟩
                have hxk : a.first < x.first := ha1 x h.1
                have hm2 := hc.2.2
                rw [keysOf_cons] at hm2
                rcases List.mem_cons.mp hm2 with heq | hm
                · omega
                · exact hm
              · refine Or.inr ⟨List.mem_cons_of_mem b h.1, ?_⟩
                rw [keysOf_cons]
                intro hm
                rcases List.mem_cons.mp hm with heq | hm2
                · have := hb2 x h.1
                  omega
                · exact h.2 hm2
            · rintro (h | h)
              · rcases List.mem_cons.mp h.1 with rfl | hm
                · exfalso
                  apply h.2
                  refine ⟨hsd.1, hsd.2, ?_⟩
                  rw [keysOf_cons]
                  exact List.mem_cons.mpr (Or.inl hkey)
                · refine Or.inl ⟨hm, fun hc => h.2 ⟨hc.1, hc.2.1, ?_⟩⟩
                  rw [keysOf_cons]
                  exact List.mem_cons_of_mem _ hc.2.2
              · rcases List.mem_cons.mp h.1 with rfl | hm
                · exfalso
                  apply h.2
                  rw [keysOf_cons]
                  exact List.mem_cons.mpr (Or.inl hkey.symm)
                · refine Or.inr ⟨hm, fun hc => h.2 ?_⟩
                  rw [keysOf_cons]
                  exact List.mem_cons_of_mem _ hc
          · rw [if_neg hsd]
            have IH := ih t1 t2 (by omega) h1t h2t x
            rw [List.mem_cons, IH]
            simp only [Bool.and_eq_true, not_and] at hsd
            constructor
            · rintro (rfl | h | h)
              · exact Or.inl ⟨List.mem_cons_self x t1, fun hc => hsd hc.1 hc.2.1⟩
              · refine Or.inl ⟨List.mem_cons_of_mem a h.1, fun hc => h.2 ⟨hc.1, hc.2.1, ?_⟩⟩
                have hxk : a.first < x.first := ha1 x h.1
                have hm2 := hc.2.2
                rw [keysOf_cons] at hm2
                rcases List.mem_cons.mp hm2 with heq | hm
                · omega
                · exact hm
              · refine Or.inr ⟨List.mem_cons_of_mem b h.1, ?_⟩
                rw [keysOf_cons]
                intro hm
                rcases List.mem_cons.mp hm with heq | hm2
                · have := hb2 x h.1
                  omega
                · exact h.2 hm2
            · rintro (h | h)
              · rcases List.mem_cons.mp h.1 with rfl | hm
                · exact Or.inl rfl
                · refine Or.inr (Or.inl ⟨hm, fun hc => h.2 ⟨hc.1, hc.2.1, ?_⟩⟩)
                  rw [keysOf_cons]
                  exact List.mem_cons_of_mem _ hc.2.2
              · rcases List.mem_cons.mp h.1 with rfl | hm
                · exfalso
                  apply h.2
                  rw [keysOf_cons]
                  exact List.mem_cons.mpr (Or.inl hkey.symm)
                · refine Or.inr (Or.inr ⟨hm, fun hc => h.2 ?_⟩)
                  rw [keysOf_cons]
                  exact List.mem_cons_of_mem _ hc

/-- C2 counterexample: in a deepest-level merge (`SkipDeleted = true`) a
tombstone whose key does not occur in the other run is retained in the merge
output, not dropped, contradicting the claim that every tombstoned entry
taking part in that merge is dropped entirely. -/
theorem c2_tombstone_retained_at_deepest :
    (⟨5, ⟨0, true⟩⟩ : Item BaseItemB).del = true ∧
    (⟨5, ⟨0, true⟩⟩ : Item BaseItemB) ∈
      mergeFull true [⟨5, ⟨0, true⟩⟩] [⟨7, ⟨1, false⟩⟩] := by
  decide

/-- C2 (amended): a non-deepest merge (`SkipDeleted = false`) keeps every
entry of the first run; a deepest-level merge drops a tombstone of the first
run exactly when its key also occurs in the second run; entries taken from
the second run are kept exactly when their key does not occur in the first
run, regardless of `SkipDeleted`. -/
theorem c2_merge_tombstone_handling [BaseOps B] (l1 l2 : List (Item B))
    (h1 : KeySorted l1) (h2 : KeySorted l2) :
    (∀ x ∈ l1, x ∈ mergeFull false l1 l2) ∧
    (∀ x ∈ l1, x.del = true → (x ∈ mergeFull true l1 l2 ↔ x.first ∉ keysOf l2)) ∧
    (∀ (skip : Bool), ∀ x ∈ l2, x ∉ l1 →
      (x ∈ mergeFull skip l1 l2 ↔ x.first ∉ keysOf l1)) := by
  have hmem := fun (skip : Bool) (x : Item B) =>
    mergeRuns_mem skip (l1.length + l2.length) l1 l2 (Nat.le_refl _) h1 h2 x
  refine ⟨?_, ?_, ?_⟩
  · intro x hx
    rw [mergeFull, hmem false x]
    exact Or.inl ⟨hx, by simp⟩
  · intro x hx hdel
    rw [mergeFull, hmem true x]
    constructor
    · rintro (⟨hx1, hn⟩ | ⟨hx2, hnk⟩)
      · intro hk
        exact hn ⟨rfl, hdel, hk⟩
      · exact fun hk => absurd (mem_keysOf l1 x hx) hnk
    · intro hk
      exact Or.inl ⟨hx, fun hc => hk hc.2.2⟩
  · intro skip x hx2 hx1
    rw [mergeFull, hmem skip x]
    constructor
    · rintro (⟨hx1m, _⟩ | ⟨_, hnk⟩)
      · exact absurd hx1m hx1
      · exact hnk
    · intro hk
      exact Or.inr ⟨hx2, hk⟩

-- ===== C8: bulk load =====

theorem le_pow_clog2 : ∀ (fuel n : Nat), n ≤ fuel → n ≤ 2 ^ clog2 n fuel := by
  intro fuel
  induction fuel with
  | zero =>
    intro n hn
    interval_cases n
    simp [clog2]
  | succ fuel ih =>
    intro n hn
    rw [clog2]
    by_cases h1 : n ≤ 1
    · rw [if_pos h1]
      simpa using h1
    · rw [if_neg h1]
      have hrec := ih ((n + 1) / 2) (by omega)
      have : n ≤ 2 * ((n + 1) / 2) := by omega
      calc n ≤ 2 * ((n + 1) / 2) := this
        _ ≤ 2 * 2 ^ clog2 ((n + 1) / 2) fuel := by omega
        _ = 2 ^ (clog2 ((n + 1) / 2) fuel + 1) := by rw [Nat.pow_succ]; omega

theorem pow_lt_clog2 : ∀ (fuel n : Nat), n ≤ fuel → ∀ e, 2 ^ e < n → e < clog2 n fuel := by
  intro fuel
  induction fuel with
  | zero =>
    intro n hn e he
    have : 1 ≤ 2 ^ e := Nat.one_le_two_pow
    omega
  | succ fuel ih =>
    intro n hn e he
    have hpow : 1 ≤ 2 ^ e := Nat.one_le_two_pow
    rw [clog2, if_neg (by omega)]
    cases e with
    | zero => omega
    | succ e =>
      have h2 : 2 ^ e < (n + 1) / 2 := by
        have : 2 ^ (e + 1) = 2 * 2 ^ e := by rw [Nat.pow_succ]; omega
        omega
      have := ih ((n + 1) / 2) (by omega) e h2
      omega

theorem nondec_head_le : ∀ (p : Nat × Nat) (t : List (Nat × Nat)),
    nondecKeys (p :: t) = true → ∀ q ∈ t, p.1 ≤ q.1 := by
  intro p t
  induction t generalizing p with
  | nil => intro _ q hq; simp at hq
  | cons r u ih =>
    intro h q hq
    rw [nondecKeys, Bool.and_eq_true] at h
    have hpr : p.1 ≤ r.1 := by simpa using h.1
    rcases List.mem_cons.mp hq with rfl | hqu
    · exact hpr
    · exact Nat.le_trans hpr (ih r h.2 q hqu)

theorem nondec_tail : ∀ (p : Nat × Nat) (t : List (Nat × Nat)),
    nondecKeys (p :: t) = true → nondecKeys t = true := by
  intro p t h
  cases t with
  | nil => rfl
  | cons r u =>
    rw [nondecKeys, Bool.and_eq_true] at h
    exact h.2

theorem dedupFrom_spec : ∀ (ps : List (Nat × Nat)) (prev : Nat),
    nondecKeys ps = true → (∀ p ∈ ps, prev ≤ p.1) →
    (∀ q ∈ dedupFrom prev ps, prev < q.1) ∧
    ((dedupFrom prev ps).map (fun p => p.1)).Pairwise (fun a b => a < b) := by
  intro ps
  induction ps with
  | nil => intro prev _ _; exact ⟨fun q hq => by simp [dedupFrom] at hq, by simp [dedupFrom]⟩
  | cons p t ih =>
    intro prev h hge
    have hht := nondec_head_le p t h
    have htt := nondec_tail p t h
    rw [dedupFrom]
    by_cases hpk : p.1 ≠ prev
    · rw [if_pos hpk]
      have hrec := ih p.1 htt hht
      have hpprev : prev < p.1 :=
        Nat.lt_of_le_of_ne (hge p (List.mem_cons_self _ _)) (fun h => hpk h.symm)
      constructor
      · intro q hq
        rcases List.mem_cons.mp hq with rfl | hqd
        · exact hpprev
        · exact Nat.lt_trans hpprev (hrec.1 q hqd)
      · rw [List.map_cons, List.pairwise_cons]
        refine ⟨?_, hrec.2⟩
        intro b hb
        obtain ⟨q, hq, rfl⟩ := List.mem_map.mp hb
        exact hrec.1 q hq
    · rw [if_neg hpk]
      push_neg at hpk
      subst hpk
      exact ih p.1 htt hht

theorem dedupFrom_firstVal : ∀ (ps : List (Nat × Nat)) (prev k : Nat),
    nondecKeys ps = true → (∀ p ∈ ps, prev ≤ p.1) → k ≠ prev →
    firstVal (dedupFrom prev ps) k = firstVal ps k := by
  intro ps
  induction ps with
  | nil => intro prev k _ _ _; rfl
  | cons p t ih =>
    intro prev k h hge hk
    have hht := nondec_head_le p t h
    have htt := nondec_tail p t h
    rw [dedupFrom, firstVal]
    by_cases hpk : p.1 ≠ prev
    · rw [if_pos hpk, firstVal]
      by_cases hkp : p.1 = k
      · rw [if_pos hkp, if_pos hkp]
      · rw [if_neg hkp, if_neg hkp]
        exact ih p.1 k htt hht (fun h => hkp h.symm)
    · rw [if_neg hpk]
      push_neg at hpk
      subst hpk
      rw [if_neg (fun h => hk h.symm)]
      exact ih p.1 k htt hht hk

theorem dedupPairs_sorted (ps : List (Nat × Nat)) (h : nondecKeys ps = true) :
    ((dedupPairs ps).map (fun p => p.1)).Pairwise (fun a b => a < b) := by
  cases ps with
  | nil => simp [dedupPairs]
  | cons p t =>
    rw [dedupPairs, List.map_cons, List.pairwise_cons]
    have hspec := dedupFrom_spec t p.1 (nondec_tail p t h) (nondec_head_le p t h)
    refine ⟨?_, hspec.2⟩
    intro b hb
    obtain ⟨q, hq, rfl⟩ := List.mem_map.mp hb
    exact hspec.1 q hq

theorem dedupPairs_firstVal (ps : List (Nat × Nat)) (k : Nat) (h : nondecKeys ps = true) :
    firstVal (dedupPairs ps) k = firstVal ps k := by
  cases ps with
  | nil => rfl
  | cons p t =>
    rw [dedupPairs, firstVal, firstVal]
    by_cases hkp : p.1 = k
    · rw [if_pos hkp, if_pos hkp]
    · rw [if_neg hkp, if_neg hkp]
      exact dedupFrom_firstVal t p.1 k (nondec_tail p t h) (nondec_head_le p t h)
        (fun hc => hkp hc.symm)

theorem firstVal_mem : ∀ (ps : List (Nat × Nat)) (k v : Nat),
    firstVal ps k = some v → (k, v) ∈ ps := by
  intro ps
  induction ps with
  | nil => intro k v h; simp [firstVal] at h
  | cons p t ih =>
    intro k v h
    rw [firstVal] at h
    by_cases hkp : p.1 = k
    · rw [if_pos hkp] at h
      have : p = (k, v) := by
        cases p
        simp at hkp h
        simp [hkp, h]
      rw [← this]
      exact List.mem_cons_self _ _
    · rw [if_neg hkp] at h
      exact List.mem_cons_of_mem _ (ih k v h)

theorem keySorted_unique [BaseOps B] (l : List (Item B)) (h : KeySorted l)
    (y1 y2 : Item B) (h1 : y1 ∈ l) (h2 : y2 ∈ l) (hk : y1.first = y2.first) : y1 = y2 := by
  obtain ⟨n1, hn1, he1⟩ := mem_index l y1 h1
  obtain ⟨n2, hn2, he2⟩ := mem_index l y2 h2
  rcases Nat.lt_trichotomy n1 n2 with hlt | heq | hgt
  · have := List.pairwise_iff_get.mp h ⟨n1, hn1⟩ ⟨n2, hn2⟩ hlt
    rw [← getD_eq_get l dfltItem n1 hn1, ← getD_eq_get l dfltItem n2 hn2, he1, he2] at this
    omega
  · rw [← he1, ← he2, heq]
  · have := List.pairwise_iff_get.mp h ⟨n2, hn2⟩ ⟨n1, hn1⟩ hgt
    rw [← getD_eq_get l dfltItem n1 hn1, ← getD_eq_get l dfltItem n2 hn2, he1, he2] at this
    omega

theorem findLoop_none [BaseOps B] (s : DPGM B) (k : Nat) :
    ∀ (fuel j : Nat), (∀ i, j ≤ i → getLevel s i = []) → findLoop s k j fuel = none := by
  intro fuel
  induction fuel with
  | zero => intro j _; rfl
  | succ fuel ih =>
    intro j hall
    rw [findLoop]
    by_cases hj : s.used_levels ≤ j
    · rw [if_pos hj]
    · rw [if_neg hj]
      have : getLevel s j = [] := hall j (Nat.le_refl _)
      simp only [this, List.isEmpty_nil, if_true]
      exact ih (j + 1) (fun i hi => hall i (by omega))

theorem findLoop_single [BaseOps B] (s : DPGM B) (k : Nat) (t : Nat)
    (ht : t < s.used_levels)
    (hempty : ∀ i, min_level ≤ i → i ≠ t → getLevel s i = [])
    (hne : getLevel s t ≠ []) :
    ∀ (fuel j : Nat), min_level ≤ j → j ≤ t → s.used_levels + 1 - j ≤ fuel →
      findLoop s k j fuel =
        (let l := getLevel s t
         let p := lbIdx l k
         if p < l.length ∧ (l.getD p dfltItem).first = k then
           (if (l.getD p dfltItem).del then none else some (l.getD p dfltItem))
         else none) := by
  intro fuel
  induction fuel with
  | zero => intro j hjm hj hf; omega
  | succ fuel ih =>
    intro j hjm hj hf
    rw [findLoop, if_neg (by omega)]
    dsimp only
    by_cases hjt : j = t
    · subst hjt
      have hni : (getLevel s j).isEmpty = false := by
        cases hl : getLevel s j with
        | nil => exact absurd hl hne
        | cons a u => rfl
      rw [hni]
      simp only [Bool.false_eq_true, if_false]
      rw [levelRange_eq]
      simp only [Nat.sub_zero, lbIdx]
      by_cases hhit : lbAux (getLevel s j) k 0 (getLevel s j).length (getLevel s j).length <
          (getLevel s j).length ∧
          ((getLevel s j).getD (lbAux (getLevel s j) k 0 (getLevel s j).length
            (getLevel s j).length) dfltItem).first = k
      · have hc : (decide (lbAux (getLevel s j) k 0 (getLevel s j).length
            (getLevel s j).length < (getLevel s j).length) &&
            (((getLevel s j).getD (lbAux (getLevel s j) k 0 (getLevel s j).length
              (getLevel s j).length) dfltItem).first == k)) = true := by
          simp only [Bool.and_eq_true, decide_eq_true_eq, beq_iff_eq]
          exact hhit
        rw [hc, if_pos rfl]
        simp only [if_pos hhit]
      · have hc : (decide (lbAux (getLevel s j) k 0 (getLevel s j).length
            (getLevel s j).length < (getLevel s j).length) &&
            (((getLevel s j).getD (lbAux (getLevel s j) k 0 (getLevel s j).length
              (getLevel s j).length) dfltItem).first == k)) = false := by
          rw [← Bool.not_eq_true]
          simp only [Bool.and_eq_true, decide_eq_true_eq, beq_iff_eq]
          exact hhit
        rw [hc]
        simp only [Bool.false_eq_true, if_false]
        rw [if_neg hhit]
        exact findLoop_none s k fuel (j + 1) (fun i hi => hempty i (by omega) (by omega))
    · have hje : getLevel s j = [] := hempty j hjm hjt
      simp only [hje, List.isEmpty_nil, if_true]
      exact ih (j + 1) (by omega) (by omega) (by omega)

/-- C8 (amended): for sorted bulk inputs of at least 33 pairs, only the first
occurrence of each key is kept and `find` on a duplicated key returns the
value of its first occurrence.  (For smaller inputs the constructor writes
out of bounds, see the counterexample.) -/
theorem c8_bulk_first_occurrence (ps : List (Nat × Nat)) (k v : Nat)
    (hsorted : nondecKeys ps = true) (hlen : 33 ≤ ps.length)
    (hfv : firstVal ps k = some v) :
    ∃ s : DPGM BaseItemB, build ps = some s ∧ find s k = some ⟨k, ⟨v, false⟩⟩ := by
  have hclog : 5 < clog2 ps.length ps.length :=
    pow_lt_clog2 ps.length ps.length (Nat.le_refl _) 5 (by norm_num; omega)
  set used := clog2 ps.length ps.length + 1 with hused
  have hused7 : min_level + 1 ≤ used := by rw [min_level]; omega
  set len := max used max_fully_allocated_level - min_level + 1 with hlendef
  set tgt := (dedupPairs ps).map
    (fun p => Item.mk p.1 (BaseOps.ofValue p.2) : Nat × Nat → Item BaseItemB) with htgt
  have hbuild : build ps = some
      ⟨used, (List.replicate len ([] : List (Item BaseItemB))).set (used - 1 - min_level) tgt⟩ := by
    rw [build]
    dsimp only
    rw [if_neg (by omega)]
  set s : DPGM BaseItemB :=
    ⟨used, (List.replicate len ([] : List (Item BaseItemB))).set (used - 1 - min_level) tgt⟩
    with hsdef
  refine ⟨s, hbuild, ?_⟩
  have htlt : used - 1 - min_level < len := by
    rw [hlendef, max_fully_allocated_level, min_level]
    omega
  have hlvl : getLevel s (used - 1) = tgt := by
    show ((List.replicate len ([] : List (Item BaseItemB))).set (used - 1 - min_level)
      tgt).getD (used - 1 - min_level) [] = tgt
    rw [getD_set_self]
    rw [if_pos (by rw [List.length_replicate]; exact htlt)]
  have hps : ps ≠ [] := by
    intro h
    rw [h] at hlen
    simp at hlen
  have htgtne : tgt ≠ [] := by
    cases hp : ps with
    | nil => exact absurd hp hps
    | cons p t =>
      rw [htgt, hp, dedupPairs]
      simp
  have hempty : ∀ i, min_level ≤ i → i ≠ used - 1 → getLevel s i = [] := by
    intro i him hit
    show ((List.replicate len ([] : List (Item BaseItemB))).set (used - 1 - min_level)
      tgt).getD (i - min_level) [] = []
    rw [getD_set_ne _ _ _ _ _ (by rw [min_level] at him hused7 ⊢; omega), getD_replicate_self]
  have hsorted2 : KeySorted tgt := by
    rw [htgt, KeySorted, List.pairwise_map]
    have := dedupPairs_sorted ps hsorted
    rw [List.pairwise_map] at this
    exact this
  have hfv2 : (k, v) ∈ dedupPairs ps :=
    firstVal_mem _ k v (by rw [dedupPairs_firstVal ps k hsorted]; exact hfv)
  have hmemtgt : (⟨k, ⟨v, false⟩⟩ : Item BaseItemB) ∈ tgt := by
    rw [htgt]
    exact List.mem_map_of_mem _ hfv2
  have hkmem : k ∈ keysOf tgt := by
    have := mem_keysOf tgt _ hmemtgt
    simpa using this
  obtain ⟨hp1, hp2⟩ := lbIdx_mem tgt k hsorted2 hkmem
  have hfind : find s k = some (tgt.getD (lbIdx tgt k) dfltItem) := by
    rw [find]
    rw [findLoop_single s k (used - 1) (by show used - 1 < used; omega)
      hempty (by rw [hlvl]; exact htgtne) (s.used_levels + 1) min_level (Nat.le_refl _)
      (by show min_level ≤ used - 1; rw [min_level] at hused7 ⊢; omega)
      (by omega)]
    dsimp only
    rw [hlvl]
    rw [if_pos ⟨hp1, hp2⟩]
    have hy : (tgt.getD (lbIdx tgt k) dfltItem) ∈ tgt := getD_mem tgt _ hp1
    have hyeq : tgt.getD (lbIdx tgt k) dfltItem = ⟨k, ⟨v, false⟩⟩ :=
      keySorted_unique tgt hsorted2 _ _ hy hmemtgt (by rw [hp2])
    rw [hyeq]
    rfl
  rw [hfind]
  have hyeq : tgt.getD (lbIdx tgt k) dfltItem = ⟨k, ⟨v, false⟩⟩ :=
    keySorted_unique tgt hsorted2 _ _ (getD_mem tgt _ hp1) hmemtgt (by rw [hp2])
  rw [hyeq]

-- ===== C6: capacity invariant =====

theorem sumLenD_self [BaseOps B] (dat : List (List (Item B))) (i : Nat) :
    sumLenD dat i i = 0 := by
  simp [sumLenD]

theorem sumLenD_peel [BaseOps B] (dat : List (List (Item B))) (i j : Nat) (h : i < j) :
    sumLenD dat i j = (dat.getD (i - min_level) []).length + sumLenD dat (i + 1) j := by
  rw [sumLenD, sumLenD]
  have h1 : j - i = (j - (i + 1)) + 1 := by omega
  rw [h1, List.range'_succ]
  simp

theorem sumLenD_congr_aux [BaseOps B] (dat1 dat2 : List (List (Item B))) :
    ∀ (n i : Nat),
    (∀ t, i ≤ t → t < i + n → dat1.getD (t - min_level) [] = dat2.getD (t - min_level) []) →
    sumLenD dat1 i (i + n) = sumLenD dat2 i (i + n) := by
  intro n
  induction n with
  | zero => intro i _; rw [Nat.add_zero, sumLenD_self, sumLenD_self]
  | succ n ih =>
    intro i hcong
    rw [sumLenD_peel _ i (i + (n + 1)) (by omega), sumLenD_peel _ i (i + (n + 1)) (by omega)]
    rw [hcong i (Nat.le_refl _) (by omega)]
    have h2 : i + (n + 1) = (i + 1) + n := by omega
    rw [h2]
    rw [ih (i + 1) (fun t ht1 ht2 => hcong t (by omega) (by omega))]

theorem sumLenD_congr [BaseOps B] (dat1 dat2 : List (List (Item B))) (i j : Nat)
    (hcong : ∀ t, i ≤ t → t < j → dat1.getD (t - min_level) [] = dat2.getD (t - min_level) []) :
    sumLenD dat1 i j = sumLenD dat2 i j := by
  rcases le_or_lt i j with h | h
  · have h2 : j = i + (j - i) := by omega
    rw [h2]
    exact sumLenD_congr_aux dat1 dat2 (j - i) i (fun t ht1 ht2 => hcong t ht1 (by omega))
  · have h1 : j - i = 0 := by omega
    rw [sumLenD, sumLenD, h1]
    simp

theorem scanLoop_zero [BaseOps B] (s : DPGM B) (i req : Nat) :
    scanLoop s i req 0 = (i, req) := rfl

theorem scanLoop_succ [BaseOps B] (s : DPGM B) (i req fuel : Nat) :
    scanLoop s i req (fuel + 1) =
      if s.used_levels ≤ i then (i, req)
      else if req ≤ 2 ^ i - (getLevel s i).length then (i, req)
      else scanLoop s (i + 1) (req + (getLevel s i).length) fuel := rfl

/-- Full characterization of the scan loop of `insert`: under the level-size
caps, the result index stays within `(min_level, used_levels]`, the accumulated
requirement equals the initial one plus the sizes of the passed levels, stays
below the capacity of the result level, and — when the loop broke early — fits
into the free slots of the result level. -/
theorem scanLoop_spec [BaseOps B] (s : DPGM B)
    (hcap : ∀ j, min_level < j → (getLevel s j).length ≤ 2 ^ j) :
    ∀ (fuel i req : Nat), min_level < i → i ≤ s.used_levels →
      s.used_levels - i ≤ fuel → 1 ≤ req → req ≤ 2 ^ i →
      min_level < (scanLoop s i req fuel).1 ∧
      i ≤ (scanLoop s i req fuel).1 ∧
      (scanLoop s i req fuel).1 ≤ s.used_levels ∧
      1 ≤ (scanLoop s i req fuel).2 ∧
      (scanLoop s i req fuel).2 = req + sumLenD s.data i (scanLoop s i req fuel).1 ∧
      (scanLoop s i req fuel).2 ≤ 2 ^ (scanLoop s i req fuel).1 ∧
      ((scanLoop s i req fuel).1 < s.used_levels →
        (scanLoop s i req fuel).2 + (getLevel s (scanLoop s i req fuel).1).length ≤
          2 ^ (scanLoop s i req fuel).1) := by
  intro fuel
  induction fuel with
  | zero =>
    intro i req hmin hle hfuel hreq1 hreq2
    rw [scanLoop_zero]
    dsimp only
    refine ⟨hmin, Nat.le_refl _, hle, hreq1, ?_, hreq2, ?_⟩
    · rw [sumLenD_self]; omega
    · intro h; omega
  | succ fuel ih =>
    intro i req hmin hle hfuel hreq1 hreq2
    rw [scanLoop_succ]
    by_cases h1 : s.used_levels ≤ i
    · rw [if_pos h1]
      dsimp only
      refine ⟨hmin, Nat.le_refl _, hle, hreq1, ?_, hreq2, ?_⟩
      · rw [sumLenD_self]; omega
      · intro h; omega
    · rw [if_neg h1]
      by_cases h2 : req ≤ 2 ^ i - (getLevel s i).length
      · rw [if_pos h2]
        dsimp only
        refine ⟨hmin, Nat.le_refl _, hle, hreq1, ?_, hreq2, ?_⟩
        · rw [sumLenD_self]; omega
        · intro _
          have hc := hcap i hmin
          omega
      · rw [if_neg h2]
        have hlen := hcap i hmin
        obtain ⟨g1, g2, g3, g4, g5, g6, g7⟩ :=
          ih (i + 1) (req + (getLevel s i).length) (by omega) (by omega) (by omega)
            (by omega) (by rw [pow_succ]; omega)
        refine ⟨g1, by omega, g3, g4, ?_, g6, g7⟩
        rw [g5, sumLenD_peel s.data i _ (by omega)]
        rw [getLevel] at *
        omega

theorem mergeLoop_zero [BaseOps B] (used limit i : Nat) (dat : List (List (Item B)))
    (bufA bufB : List (Item B)) (m actual : Nat) :
    mergeLoop used limit i dat bufA bufB m actual 0 = (dat, bufA, bufB, actual) := rfl

theorem mergeLoop_succ [BaseOps B] (used limit i : Nat) (dat : List (List (Item B)))
    (bufA bufB : List (Item B)) (m actual fuel : Nat) :
    mergeLoop used limit i dat bufA bufB m actual (fuel + 1) =
      if limit < i then (dat, bufA, bufB, actual)
      else
        let alternate := (i - min_level) % 2 == m
        let src := if alternate then bufA else bufB
        let lvl := dat.getD (i - min_level) []
        let skip := i == used - 1
        let out := mergeFull skip (src.take actual) lvl
        let dat1 := dat.set (i - min_level) []
        if alternate then mergeLoop used limit (i + 1) dat1 bufA (writeOut bufB out) m out.length fuel
        else mergeLoop used limit (i + 1) dat1 (writeOut bufA out) bufB m out.length fuel := rfl

theorem length_mergeFull_take [BaseOps B] (skip : Bool) (l : List (Item B)) (a : Nat)
    (l2 : List (Item B)) :
    (mergeFull skip (l.take a) l2).length ≤ a + l2.length := by
  have h1 := length_mergeRuns skip ((l.take a).length + l2.length) (l.take a) l2
  rw [mergeFull]
  have h2 : (l.take a).length ≤ a := by rw [List.length_take]; omega
  omega

/-- The if-then-else bookkeeping of one `mergeLoop` step: clearing level `i`
and then clearing `[i+1, limit]` equals clearing `[i, limit]`. -/
theorem clearStep_char [BaseOps B] (dat : List (List (Item B))) (i limit n : Nat)
    (hmin : min_level < i) (hle : i ≤ limit) :
    (if i + 1 - min_level ≤ n ∧ min_level + n ≤ limit then ([] : List (Item B))
     else (dat.set (i - min_level) ([] : List (Item B))).getD n []) =
    (if i - min_level ≤ n ∧ min_level + n ≤ limit then [] else dat.getD n []) := by
  by_cases hn1 : min_level + n ≤ limit
  · by_cases hn2 : i + 1 - min_level ≤ n
    · rw [if_pos ⟨hn2, hn1⟩, if_pos ⟨by omega, hn1⟩]
    · by_cases hn3 : i - min_level ≤ n
      · have he : n = i - min_level := by omega
        rw [if_neg (by omega), if_pos ⟨hn3, hn1⟩, he, getD_set_self, ite_self]
      · rw [if_neg (by omega), if_neg (by omega), getD_set_ne _ _ _ _ _ (by omega)]
  · rw [if_neg (by omega), if_neg (by omega), getD_set_ne _ _ _ _ _ (by omega)]

/-- The merge loop of `pairwise_logarithmic_merge`: the final output length is
bounded by the initial `actual` plus the sizes of the merged levels, and the
final data array has levels `[i, limit]` cleared and all other slots
unchanged. -/
theorem mergeLoop_spec [BaseOps B] (used limit : Nat) :
    ∀ (fuel i : Nat), min_level < i → limit + 2 - i ≤ fuel →
    ∀ (dat : List (List (Item B))) (bufA bufB : List (Item B)) (m actual : Nat),
      (mergeLoop used limit i dat bufA bufB m actual fuel).2.2.2 ≤
        actual + sumLenD dat i (limit + 1) ∧
      ∀ n, (mergeLoop used limit i dat bufA bufB m actual fuel).1.getD n [] =
        if i - min_level ≤ n ∧ min_level + n ≤ limit then [] else dat.getD n [] := by
  intro fuel
  induction fuel with
  | zero =>
    intro i hmin hfuel dat bufA bufB m actual
    rw [mergeLoop_zero]
    dsimp only
    exact ⟨Nat.le_add_right _ _, fun n => by rw [if_neg (by omega)]⟩
  | succ fuel ih =>
    intro i hmin hfuel dat bufA bufB m actual
    rw [mergeLoop_succ]
    by_cases hlim : limit < i
    · rw [if_pos hlim]
      dsimp only
      exact ⟨Nat.le_add_right _ _, fun n => by rw [if_neg (by omega)]⟩
    · rw [if_neg hlim]
      dsimp only
      have hsum : sumLenD (dat.set (i - min_level) ([] : List (Item B))) (i + 1) (limit + 1) =
          sumLenD dat (i + 1) (limit + 1) :=
        sumLenD_congr _ _ _ _ (fun t ht1 ht2 => getD_set_ne _ _ _ _ _ (by omega))
      have hpeel := sumLenD_peel dat i (limit + 1) (by omega)
      split
      · obtain ⟨b1, b2⟩ := ih (i + 1) (by omega) (by omega)
          (dat.set (i - min_level) []) bufA
          (writeOut bufB (mergeFull (i == used - 1) (bufA.take actual) (dat.getD (i - min_level) []))) m
          (mergeFull (i == used - 1) (bufA.take actual) (dat.getD (i - min_level) [])).length
        have hout := length_mergeFull_take (i == used - 1) bufA actual (dat.getD (i - min_level) [])
        refine ⟨by omega, fun n => ?_⟩
        rw [b2 n, clearStep_char dat i limit n hmin (by omega)]
      · obtain ⟨b1, b2⟩ := ih (i + 1) (by omega) (by omega)
          (dat.set (i - min_level) [])
          (writeOut bufA (mergeFull (i == used - 1) (bufB.take actual) (dat.getD (i - min_level) []))) bufB m
          (mergeFull (i == used - 1) (bufB.take actual) (dat.getD (i - min_level) [])).length
        have hout := length_mergeFull_take (i == used - 1) bufB actual (dat.getD (i - min_level) [])
        refine ⟨by omega, fun n => ?_⟩
        rw [b2 n, clearStep_char dat i limit n hmin (by omega)]

theorem sumLenD_snoc_aux [BaseOps B] (dat : List (List (Item B))) :
    ∀ (n i : Nat), sumLenD dat i (i + n + 1) =
      sumLenD dat i (i + n) + (dat.getD (i + n - min_level) []).length := by
  intro n
  induction n with
  | zero =>
    intro i
    simp only [Nat.add_zero]
    rw [sumLenD_self, sumLenD_peel _ i (i + 1) (by omega), sumLenD_self]
    omega
  | succ n ih =>
    intro i
    rw [sumLenD_peel _ i (i + (n + 1) + 1) (by omega), sumLenD_peel _ i (i + (n + 1)) (by omega)]
    have h1 : i + (n + 1) + 1 = (i + 1) + n + 1 := by omega
    have h2 : i + (n + 1) = (i + 1) + n := by omega
    rw [h1, h2, ih (i + 1)]
    omega

/-- Peeling the last level off a level-size sum. -/
theorem sumLenD_snoc [BaseOps B] (dat : List (List (Item B))) (i j : Nat) (h : i ≤ j) :
    sumLenD dat i (j + 1) = sumLenD dat i j + (dat.getD (j - min_level) []).length := by
  have h1 : j = i + (j - i) := by omega
  rw [h1]
  exact sumLenD_snoc_aux dat (j - i) i


theorem pairwiseMerge_as_install [BaseOps B] (s : DPGM B) (x : Item B)
    (up_to ip size_hint : Nat) :
    pairwiseMerge s x up_to ip size_hint =
      installMerge s.used_levels
        (if (getLevel s (up_to + 1)).isEmpty then up_to else up_to + 1) up_to s.data
        (if (up_to - min_level) % 2 == 1 then
          writeOut (List.replicate size_hint dfltItem) (insertAt (getLevel s min_level) ip x)
         else List.replicate size_hint dfltItem)
        (if (up_to - min_level) % 2 == 1 then
          List.replicate (size_hint + (getLevel s (up_to + 1)).length) dfltItem
         else writeOut (List.replicate (size_hint + (getLevel s (up_to + 1)).length) dfltItem)
          (insertAt (getLevel s min_level) ip x))
        ((up_to - min_level) % 2) := rfl

/-- What the install phase guarantees: `used_levels` is unchanged, the buffer
level is cleared, the installed target level is bounded by the total size of
the merge inputs, and every other level is either cleared (if it was merged)
or untouched. -/
theorem installMerge_spec [BaseOps B] (used L up_to : Nat) (dat : List (List (Item B)))
    (bA bB : List (Item B)) (m : Nat)
    (hup : min_level ≤ up_to) (hL1 : up_to ≤ L) (hL2 : L ≤ up_to + 1) :
    (installMerge used L up_to dat bA bB m).used_levels = used ∧
    getLevel (installMerge used L up_to dat bA bB m) min_level = [] ∧
    (getLevel (installMerge used L up_to dat bA bB m) (up_to + 1)).length ≤
      2 ^ (min_level + 1) + sumLenD dat (min_level + 1) (L + 1) ∧
    (∀ j, min_level < j → j ≠ up_to + 1 →
      getLevel (installMerge used L up_to dat bA bB m) j =
        if j ≤ up_to then [] else dat.getD (j - min_level) []) := by
  obtain ⟨hb, hc⟩ := mergeLoop_spec used L (L + 1) (min_level + 1) (by omega) (by omega)
    dat bA bB m (2 ^ (min_level + 1))
  refine ⟨rfl, ?_, ?_, ?_⟩
  · simp only [installMerge, getLevel]
    rw [Nat.sub_self, getD_set_ne _ _ _ _ _ (by omega), getD_set_self, ite_self]
  · simp only [installMerge, getLevel]
    rw [getD_set_self]
    split
    · rw [length_resizeTo]
      exact hb
    · simp
  · intro j hj1 hj2
    simp only [installMerge, getLevel]
    rw [getD_set_ne _ _ _ _ _ (by omega), getD_set_ne _ _ _ _ _ (by omega),
      hc (j - min_level)]
    by_cases hj : j ≤ up_to
    · rw [if_pos ⟨by omega, by omega⟩, if_pos hj]
    · rw [if_neg (by omega), if_neg hj]

/-- `pairwise_logarithmic_merge` keeps `used_levels`, clears the buffer level,
installs a target level bounded by the total size of the merge inputs, clears
the merged levels and leaves the rest untouched. -/
theorem pairwiseMerge_spec [BaseOps B] (s : DPGM B) (x : Item B) (up_to ip size_hint : Nat)
    (hup : min_level ≤ up_to) :
    (pairwiseMerge s x up_to ip size_hint).used_levels = s.used_levels ∧
    getLevel (pairwiseMerge s x up_to ip size_hint) min_level = [] ∧
    (getLevel (pairwiseMerge s x up_to ip size_hint) (up_to + 1)).length ≤
      2 ^ (min_level + 1) + sumLenD s.data (min_level + 1)
        ((if (getLevel s (up_to + 1)).isEmpty then up_to else up_to + 1) + 1) ∧
    (∀ j, min_level < j → j ≠ up_to + 1 →
      getLevel (pairwiseMerge s x up_to ip size_hint) j =
        if j ≤ up_to then [] else getLevel s j) := by
  rw [pairwiseMerge_as_install]
  exact installMerge_spec s.used_levels _ up_to s.data _ _ _ hup
    (by split <;> omega) (by split <;> omega)

/-- Both states that can play the role of `*this` at the call to
`pairwise_logarithmic_merge` inside `insert` satisfy the invariant afterwards:
the hypotheses approximate the scan-loop facts together with the relation
between the caller's state `s` and the possibly level-extended state `s1`. -/
theorem INV_install_core [BaseOps B] (s s1 : DPGM B) (x : Item B) (ip p1 p2 : Nat)
    (hgl : ∀ j, getLevel s1 j = getLevel s j)
    (h2 : ∀ i, min_level < i → (getLevel s i).length ≤ 2 ^ i)
    (h3 : ∀ i, s.used_levels ≤ i → getLevel s i = [])
    (hsu : s.used_levels ≤ s1.used_levels)
    (hp1min : min_level < p1)
    (hp1lt : p1 < s1.used_levels)
    (hsum : p2 = 2 ^ (min_level + 1) + sumLenD s.data (min_level + 1) p1)
    (hp2le : p2 ≤ 2 ^ p1)
    (hbrk : p1 < s.used_levels → p2 + (getLevel s p1).length ≤ 2 ^ p1) :
    INV (pairwiseMerge s1 x (p1 - 1) ip p2) := by
  obtain ⟨i1, i2, i3, i4⟩ := pairwiseMerge_spec s1 x (p1 - 1) ip p2 (by omega)
  have e : p1 - 1 + 1 = p1 := by omega
  rw [e] at i3 i4
  have hcget : ∀ j k, sumLenD s1.data j k = sumLenD s.data j k :=
    fun j k => sumLenD_congr _ _ _ _ (fun t _ _ => hgl t)
  refine ⟨?_, ?_, ?_, ?_, fun _ => i2⟩
  · rw [i2]; simp
  · intro i hi
    by_cases hip1 : i = p1
    · subst hip1
      cases hemp : (getLevel s1 i).isEmpty with
      | false =>
        rw [hemp, if_neg Bool.false_ne_true] at i3
        rw [hcget] at i3
        rw [sumLenD_snoc s.data (min_level + 1) i (by omega)] at i3
        have hnegl : getLevel s i ≠ [] := by
          rw [hgl i] at hemp
          intro hz; rw [hz] at hemp; simp at hemp
        have hlt : i < s.used_levels := by
          by_contra hge
          exact hnegl (h3 i (by omega))
        have hb := hbrk hlt
        have hgd : getLevel s i = s.data.getD (i - min_level) [] := rfl
        rw [hgd] at hb
        omega
      | true =>
        rw [hemp, if_pos rfl] at i3
        rw [e, hcget] at i3
        omega
    · rw [i4 i hi (by omega)]
      split
      · simp
      · rw [hgl i]; exact h2 i hi
  · intro i hi3
    rw [i1] at hi3
    rw [i4 i (by omega) (by omega), if_neg (by omega), hgl i]
    exact h3 i (by omega)
  · rw [i1]; omega

/-- Preservation of the invariant by the two `insert` branches that only
rewrite the buffer level. -/
theorem INV_set0 [BaseOps B] (s : DPGM B) (l : List (Item B)) (u : Nat)
    (h : INV s)
    (hlen : l.length ≤ 2 ^ (min_level + 1) - 1)
    (hu1 : s.used_levels ≤ u)
    (hu2 : min_level < u) :
    INV (⟨u, s.data.set 0 l⟩ : DPGM B) := by
  obtain ⟨h1, h2, h3, h4, h5⟩ := h
  refine ⟨?_, ?_, ?_, show min_level ≤ u by omega,
    fun he => absurd (show u = min_level from he) (by omega)⟩
  · show ((s.data.set 0 l).getD (min_level - min_level) []).length ≤ _
    rw [Nat.sub_self, getD_set_self]
    split
    · exact hlen
    · simp
  · intro i hi
    show ((s.data.set 0 l).getD (i - min_level) []).length ≤ _
    rw [getD_set_ne _ _ _ _ _ (by omega)]
    exact h2 i hi
  · intro i hi
    have hi2 : u ≤ i := hi
    show (s.data.set 0 l).getD (i - min_level) [] = []
    rw [getD_set_ne _ _ _ _ _ (by omega)]
    exact h3 i (by omega)

/-- The cascade branch of `insert` preserves the invariant, for both outcomes
of the `need_new_level` check. -/
theorem insertMerge_INV [BaseOps B] (s s1 : DPGM B) (x : Item B) (ip p1 p2 : Nat)
    (h : INV s) (hu : min_level < s.used_levels)
    (hp : scanLoop s (min_level + 1) (2 ^ (min_level + 1) - 1 + 1) (s.used_levels + 1) = (p1, p2))
    (hs1 : s1 = if p1 == s.used_levels then
        (⟨s.used_levels + 1, s.data ++ [[]]⟩ : DPGM B) else s) :
    INV (pairwiseMerge s1 x (p1 - 1) ip p2) := by
  obtain ⟨h1, h2, h3, h4, h5⟩ := h
  have hone : 0 < 2 ^ (min_level + 1) := pow_pos (by norm_num) _
  have hsp := scanLoop_spec s h2 (s.used_levels + 1) (min_level + 1)
    (2 ^ (min_level + 1) - 1 + 1) (by omega) (by omega) (by omega) (by omega) (by omega)
  rw [hp] at hsp
  dsimp only at hsp
  obtain ⟨p1min, p1ge, p1le, p2pos, p2sum, p2le, p2brk⟩ := hsp
  rcases Bool.eq_false_or_eq_true (p1 == s.used_levels) with hbeq | hbeq
  · rw [hbeq, if_pos rfl] at hs1
    have he : p1 = s.used_levels := eq_of_beq hbeq
    subst hs1
    exact INV_install_core s _ x ip p1 p2
      (fun j => getD_append_default s.data [] (j - min_level)) h2 h3
      (by show s.used_levels ≤ s.used_levels + 1; omega)
      (by omega) (by show p1 < s.used_levels + 1; omega) (by omega) p2le p2brk
  · rw [hbeq, if_neg Bool.false_ne_true] at hs1
    have hne : p1 ≠ s.used_levels := by
      intro he; rw [he] at hbeq; simp at hbeq
    rw [hs1]
    exact INV_install_core s s x ip p1 p2 (fun j => rfl) h2 h3 (Nat.le_refl _)
      (by omega) (by omega) (by omega) p2le p2brk

/-- The private `insert(const Item&)` preserves the capacity invariant. -/
theorem insertItem_INV [BaseOps B] (s : DPGM B) (x : Item B) (h : INV s) :
    INV (insertItem s x) := by
  have hINV := h
  obtain ⟨h1, h2, h3, h4, h5⟩ := h
  have h128 : (2 : Nat) ^ (min_level + 1) = 128 := rfl
  simp only [insertItem]
  split
  · rename_i hcond
    rw [Bool.and_eq_true, decide_eq_true_eq] at hcond
    obtain ⟨hip, -⟩ := hcond
    have hne : getLevel s min_level ≠ [] := by
      intro hz; rw [hz] at hip; simp at hip
    have hu : min_level < s.used_levels := by
      rcases Nat.lt_or_ge min_level s.used_levels with hlt | hge
      · exact hlt
      · exact absurd (h5 (by omega)) hne
    exact INV_set0 s _ s.used_levels hINV
      (by rw [List.length_set]; exact h1) (Nat.le_refl _) hu
  · split
    · rename_i hcap
      refine INV_set0 s _ _ hINV ?_ ?_ ?_
      · rw [length_insertAt]; omega
      · split
        · rename_i hbeq
          have he := eq_of_beq hbeq
          omega
        · omega
      · split
        · omega
        · rename_i hbeq
          have he : s.used_levels ≠ min_level := by
            intro hz; rw [hz] at hbeq; simp at hbeq
          omega
    · rename_i hcap
      have hlen : ¬((getLevel s min_level).length < 2 ^ (min_level + 1) - 1) := hcap
      have hne : getLevel s min_level ≠ [] := by
        intro hz
        rw [hz] at hlen
        simp only [List.length_nil] at hlen
        omega
      have hu : min_level < s.used_levels := by
        rcases Nat.lt_or_ge min_level s.used_levels with hlt | hge
        · exact hlt
        · exact absurd (h5 (by omega)) hne
      exact insertMerge_INV s _ x _ _ _ hINV hu rfl rfl

theorem dedupFrom_length_le : ∀ (ps : List (Nat × Nat)) (k : Nat),
    (dedupFrom k ps).length ≤ ps.length := by
  intro ps
  induction ps with
  | nil => intro k; simp [dedupFrom]
  | cons p t ih =>
    intro k
    rw [dedupFrom]
    split
    · have := ih p.1
      simp only [List.length_cons]
      omega
    · have := ih k
      simp only [List.length_cons]
      omega

theorem dedupPairs_length_le (ps : List (Nat × Nat)) :
    (dedupPairs ps).length ≤ ps.length := by
  cases ps with
  | nil => simp [dedupPairs]
  | cons p t =>
    rw [dedupPairs]
    have := dedupFrom_length_le t p.1
    simp only [List.length_cons]
    omega

/-- The default constructor establishes the capacity invariant. -/
theorem initState_INV [BaseOps B] : INV (initState : DPGM B) := by
  refine ⟨?_, ?_, ?_, Nat.le_refl _, fun _ => ?_⟩
  · show ((List.replicate (init_levels - min_level) ([] : List (Item B))).getD
      (min_level - min_level) []).length ≤ _
    rw [getD_replicate_self]
    simp
  · intro i _
    show ((List.replicate (init_levels - min_level) ([] : List (Item B))).getD
      (i - min_level) []).length ≤ _
    rw [getD_replicate_self]
    simp
  · intro i _
    show (List.replicate (init_levels - min_level) ([] : List (Item B))).getD
      (i - min_level) [] = []
    rw [getD_replicate_self]
  · show (List.replicate (init_levels - min_level) ([] : List (Item B))).getD
      (min_level - min_level) [] = []
    rw [getD_replicate_self]

/-- The bulk-load constructor establishes the capacity invariant whenever it
does not write out of bounds. -/
theorem build_INV [BaseOps B] (ps : List (Nat × Nat)) (s : DPGM B)
    (h : build ps = some s) : INV s := by
  simp only [build] at h
  split at h
  · exact absurd h (by simp)
  · rename_i hused
    rw [Option.some_inj] at h
    subst h
    have hn := le_pow_clog2 ps.length ps.length (Nat.le_refl _)
    have hd := dedupPairs_length_le ps
    have hmax : clog2 ps.length ps.length + 1 ≤
        max (clog2 ps.length ps.length + 1) max_fully_allocated_level := le_max_left _ _
    have h64 : (2 : Nat) ^ min_level = 64 := rfl
    have h128 : (2 : Nat) ^ (min_level + 1) = 128 := rfl
    refine ⟨?_, ?_, ?_, show min_level ≤ clog2 ps.length ps.length + 1 by omega,
      fun he => absurd (show clog2 ps.length ps.length + 1 = min_level from he) (by omega)⟩
    · simp only [getLevel]
      rw [Nat.sub_self]
      by_cases hidx : clog2 ps.length ps.length + 1 - 1 - min_level = 0
      · rw [← hidx, getD_set_self]
        split
        · rw [List.length_map]
          have hcl : clog2 ps.length ps.length = min_level := by omega
          rw [hcl] at hn
          omega
        · simp
      · rw [getD_set_ne _ _ _ _ _ hidx, getD_replicate_self]
        simp
    · intro i hi
      simp only [getLevel]
      by_cases hidx : clog2 ps.length ps.length + 1 - 1 - min_level = i - min_level
      · rw [← hidx, getD_set_self]
        split
        · rw [List.length_map]
          have hi2 : i = clog2 ps.length ps.length := by omega
          rw [hi2]
          omega
        · simp
      · rw [getD_set_ne _ _ _ _ _ hidx, getD_replicate_self]
        simp
    · intro i hi
      have hi2 : clog2 ps.length ps.length + 1 ≤ i := hi
      simp only [getLevel]
      rw [getD_set_ne _ _ _ _ _ (by omega), getD_replicate_self]

/-- Every state reachable through the public interface satisfies the capacity
invariant (and its auxiliary conjuncts). -/
theorem reachable_INV (s : DPGM BaseItemB) (h : Reachable s) : INV s := by
  induction h with
  | init => exact initState_INV
  | bulk ps s hb => exact build_INV ps s hb
  | ins s k v _ ih => exact insertItem_INV s _ ih
  | del s k _ ih => exact insertItem_INV s _ ih

/-- C6: in every state reachable by any sequence of public operations, the
occupied size of each level `L > min_level` never exceeds `2^L` entries, and
the size of level `min_level` (the mutable buffer) never exceeds
`2^(min_level+1) - 1` entries. -/
theorem c6_capacity_invariant (s : DPGM BaseItemB) (h : Reachable s) :
    (getLevel s min_level).length ≤ 2 ^ (min_level + 1) - 1 ∧
    ∀ i, min_level < i → (getLevel s i).length ≤ 2 ^ i := by
  obtain ⟨h1, h2, -, -, -⟩ := reachable_INV s h
  exact ⟨h1, h2⟩

/-- Witness for C6 at a concrete reachable state. -/
theorem c6_capacity_invariant_witness :
    Reachable (insertKV (initState : DPGM BaseItemB) 5 7) ∧
    ((getLevel (insertKV (initState : DPGM BaseItemB) 5 7) min_level).length ≤
        2 ^ (min_level + 1) - 1 ∧
      ∀ i, min_level < i →
        (getLevel (insertKV (initState : DPGM BaseItemB) 5 7) i).length ≤ 2 ^ i) :=
  ⟨Reachable.ins _ 5 7 Reachable.init,
   c6_capacity_invariant _ (Reachable.ins _ 5 7 Reachable.init)⟩


/-- C8 counterexample: on the spec's own three-pair example the bulk-load
constructor computes `used_levels = 2 < min_level + 1` and writes out of
bounds (modelled as `none`). -/
theorem c8_bulk_small_input_oob :
    nondecKeys [(1, 10), (1, 11), (2, 12)] = true ∧
    (build [(1, 10), (1, 11), (2, 12)] : Option (DPGM BaseItemB)) = none := by
  decide

/-- Witness for C2 at concrete one-element runs. -/
theorem c2_merge_tombstone_handling_witness :
    (KeySorted ([⟨5, ⟨0, true⟩⟩] : List (Item BaseItemB)) ∧
     KeySorted ([⟨7, ⟨1, false⟩⟩] : List (Item BaseItemB))) ∧
    ((∀ x ∈ ([⟨5, ⟨0, true⟩⟩] : List (Item BaseItemB)),
        x ∈ mergeFull false [⟨5, ⟨0, true⟩⟩] [⟨7, ⟨1, false⟩⟩]) ∧
     (∀ x ∈ ([⟨5, ⟨0, true⟩⟩] : List (Item BaseItemB)), x.del = true →
        (x ∈ mergeFull true [⟨5, ⟨0, true⟩⟩] [⟨7, ⟨1, false⟩⟩] ↔
          x.first ∉ keysOf ([⟨7, ⟨1, false⟩⟩] : List (Item BaseItemB)))) ∧
     (∀ (skip : Bool), ∀ x ∈ ([⟨7, ⟨1, false⟩⟩] : List (Item BaseItemB)),
        x ∉ ([⟨5, ⟨0, true⟩⟩] : List (Item BaseItemB)) →
        (x ∈ mergeFull skip [⟨5, ⟨0, true⟩⟩] [⟨7, ⟨1, false⟩⟩] ↔
          x.first ∉ keysOf ([⟨5, ⟨0, true⟩⟩] : List (Item BaseItemB))))) :=
  ⟨⟨(keySorted_iff_strictAsc _).mpr (by decide), (keySorted_iff_strictAsc _).mpr (by decide)⟩,
   c2_merge_tombstone_handling _ _ ((keySorted_iff_strictAsc _).mpr (by decide))
     ((keySorted_iff_strictAsc _).mpr (by decide))⟩

/-- Witness for C4 at the freshly constructed state. -/
theorem c4_lower_bound_minimum_witness :
    (∀ i, i < (initState : DPGM BaseItemB).used_levels → KeySorted (getLevel (initState : DPGM BaseItemB) i)) ∧
    (((lowerBound (initState : DPGM BaseItemB) 0).map
        (fun c => (itemAt (initState : DPGM BaseItemB) c).first) =
        lowerBoundSpecKey (initState : DPGM BaseItemB) 0) ∧
      (∀ c, lowerBound (initState : DPGM BaseItemB) 0 = some c →
        (itemAt (initState : DPGM BaseItemB) c).del = false ∧
          0 ≤ (itemAt (initState : DPGM BaseItemB) c).first)) :=
  ⟨fun i _ => (show getLevel (initState : DPGM BaseItemB) i = [] from
      getD_replicate_self _ _ _).symm ▸ List.Pairwise.nil,
   c4_lower_bound_minimum initState 0 (fun i _ =>
    (show getLevel (initState : DPGM BaseItemB) i = [] from
      getD_replicate_self _ _ _).symm ▸ List.Pairwise.nil)⟩

/-- Witness for C8 at a 33-pair input whose first two pairs share a key. -/
theorem c8_bulk_first_occurrence_witness :
    (nondecKeys ([(1, 10), (1, 11)] ++ (List.range 31).map (fun i => (2 + i, i))) = true ∧
     33 ≤ ([(1, 10), (1, 11)] ++ (List.range 31).map (fun i => (2 + i, i))).length ∧
     firstVal ([(1, 10), (1, 11)] ++ (List.range 31).map (fun i => (2 + i, i))) 1 = some 10) ∧
    ∃ s : DPGM BaseItemB,
      build ([(1, 10), (1, 11)] ++ (List.range 31).map (fun i => (2 + i, i))) = some s ∧
      find s 1 = some ⟨1, ⟨10, false⟩⟩ :=
  ⟨⟨by decide, by decide, by decide⟩,
   c8_bulk_first_occurrence _ 1 10 (by decide) (by decide) (by decide)⟩

/-- Witness for C9 at a one-entry buffer. -/
theorem c9_update_in_place_frame_witness :
    (KeySorted (getLevel s9 min_level) ∧ 5 ∈ keysOf (getLevel s9 min_level)) ∧
    (insertItem s9 ⟨5, BaseOps.ofValue 9⟩ =
        { s9 with data := s9.data.set 0 ((getLevel s9 min_level).set
            (lbIdx (getLevel s9 min_level) 5) ⟨5, BaseOps.ofValue 9⟩) } ∧
      (insertItem s9 ⟨5, BaseOps.ofValue 9⟩).used_levels = s9.used_levels ∧
      (∀ i, min_level < i → getLevel (insertItem s9 ⟨5, BaseOps.ofValue 9⟩) i = getLevel s9 i) ∧
      (getLevel (insertItem s9 ⟨5, BaseOps.ofValue 9⟩) min_level).length =
        (getLevel s9 min_level).length) :=
  ⟨⟨(keySorted_iff_strictAsc _).mpr (by decide), by decide⟩,
   c9_update_in_place_frame s9 5 9 ((keySorted_iff_strictAsc _).mpr (by decide)) (by decide)⟩

end DPgm
